/-
  Verification of the pdf-rearranger ordering core against its specification.

  Shallow embedding of:
    src/modules/ordering.py      (order_pages_by_page_numbers, order_pages_hybrid,
                                  optimize_continuity)
    src/modules/headings.py      (compare_section_numbers and the hierarchical
                                  numeric encoding used by extract_section_number)
    src/modules/page_numbers.py  (detect_missing_pages)
    src/modules/duplicates.py    (compute_page_hash, find_exact_duplicates,
                                  mark_duplicates)
    src/modules/llm_ordering.py  (validation of the Gemini adapter response)
    src/processor.py             (step-7 reordering dispatch with fallback)

  Modelling conventions:
  - Python floats are modelled as exact rationals; rational literals are written
    with mkRat so that they evaluate inside the kernel.
  - Python dicts for page records become the Page structure; in-place mutation
    becomes functions returning updated records.
  - Python list.sort / sorted with a key function is a stable sort; it is
    modelled extensionally as sorting the position-tagged list by the pair
    (key, original position), which is the unique output a stable sort produces.
  - The cosine-similarity collaborator (modules/embeddings.py, out of scope per
    spec section 6) is a parameter sim : E -> E -> Q over an abstract embedding
    type E.
  - SHA-256 hashing of normalized text is modelled by the normalized character
    sequence itself: the code only ever compares hashes for equality, and hash
    equality stands for equality of the normalized text.
-/
import Mathlib

unseal Rat.add Rat.sub Rat.mul Rat.inv

namespace PdfRearranger

/-- Blank-page sentinel title used throughout the pipeline. -/
def blankTitle : String := "[BLANK PAGE]"

/-- PageRecord: one record per input page, progressively enriched by the
pipeline.  Fields not used by any claim (header, footer, ocr flag, scorer
diagnostics, print-only fields) are omitted.  page_number_detected mirrors the
Python pair (page_number or None, confidence). -/
structure Page where
  page_index : Nat
  text : String
  title : String
  page_number_detected : Option Nat × ℚ
  section_numeric_value : Option ℚ
  position_hint : Option Nat
  new_position : Option Nat
  is_exact_duplicate : Bool
  is_near_duplicate : Bool
  duplicate_of : List Nat
  duplicate_similarity : Option ℚ
deriving DecidableEq, Inhabited

/-- Detected page number of a record (page_number_detected[0] in the source). -/
def detectedNum (p : Page) : Option Nat := p.page_number_detected.1

/-- Detection confidence of a record (page_number_detected[1] in the source). -/
def detectedConf (p : Page) : ℚ := p.page_number_detected.2

/-- Test for the blank sentinel title (title == "[BLANK PAGE]"). -/
def isBlank (p : Page) : Bool := decide (p.title = blankTitle)

/-- Record with the new_position field cleared.  Python mutates records in
place, so the pass returns the same objects; comparing records modulo
new_position is the value-level counterpart of object identity. -/
def stripPos (p : Page) : Page := { p with new_position := none }

/-! Stable sorting, as performed by Python list.sort / sorted with a key. -/

/-- Strict lexicographic comparison of rational key vectors, as Python compares
key tuples componentwise. -/
def lexLtQ : List ℚ → List ℚ → Bool
  | [], [] => false
  | [], _ :: _ => true
  | _ :: _, [] => false
  | a :: p, b :: q => if a < b then true else if b < a then false else lexLtQ p q

/-- Comparator on position-tagged elements: by key, ties by original position.
A stable sort by a key is extensionally the sort by (key, position). -/
def keyedLe {α : Type} (key : α → List ℚ) (x y : ℕ × α) : Bool :=
  lexLtQ (key x.2) (key y.2) || (decide (key x.2 = key y.2) && decide (x.1 ≤ y.1))

/-- Insertion step of insertion sort. -/
def insertLe {α : Type} (le : α → α → Bool) (a : α) : List α → List α
  | [] => [a]
  | b :: t => if le a b then a :: b :: t else b :: insertLe le a t

/-- Insertion sort with respect to a boolean comparator. -/
def sortLe {α : Type} (le : α → α → Bool) : List α → List α
  | [] => []
  | a :: t => insertLe le a (sortLe le t)

/-- Python sorted(l, key=key): stable sort modelled as sorting the
position-tagged list by (key, position) and dropping the tags. -/
def pySortBy {α : Type} (key : α → List ℚ) (l : List α) : List α :=
  (sortLe (keyedLe key) l.enum).map Prod.snd

/-! Ordering engine (src/modules/ordering.py). -/

/-- Swap the elements at positions i and i+1 of a list (the Python parallel
assignment pages[i+1], pages[i+2] = pages[i+2], pages[i+1] is swapPair l (i+1)).
Out-of-range indices leave the list unchanged. -/
def swapPair {α : Type} (l : List α) (i : ℕ) : List α :=
  match l.get? i, l.get? (i + 1) with
  | some a, some b => (l.set i b).set (i + 1) a
  | _, _ => l

/-- Assign new_position sequentially over a list, as the Python enumerate
loops that set page["new_position"] = new_idx do. -/
def assignPositions (l : List Page) : List Page :=
  l.enum.map (fun ip => { ip.2 with new_position := some ip.1 })

/-- Adjacent-pair similarities of an embedding sequence
(ordering.py lines 291-294). -/
def initScoresOf {E : Type} [Inhabited E] (sim : E → E → ℚ) (embeddings : List E) : List ℚ :=
  (List.range (embeddings.length - 1)).map
    (fun i => sim (embeddings.getD i default) (embeddings.getD (i + 1) default))

/-- One iteration of the optimize_continuity loop body (ordering.py lines
298-310): the pair similarities were precomputed on the initial
arrangement, the swap additionally requires i+3 < len(pages), and the
improvement test compares sim(emb[i], emb[i+2]) on the current (mutated)
lists against the precomputed score plus 0.2. -/
def contStep {E : Type} [Inhabited E] (sim : E → E → ℚ) (scores : List ℚ)
    (st : List Page × List E) (i : ℕ) : List Page × List E :=
  if scores.getD i 0 < mkRat 3 10 ∧ i + 2 < st.1.length then
    if i + 3 < st.1.length then
      if sim (st.2.getD i default) (st.2.getD (i + 2) default) > scores.getD i 0 + mkRat 2 10 then
        (swapPair st.1 (i + 1), swapPair st.2 (i + 1))
      else st
    else st
  else st

/-- optimize_continuity (ordering.py lines 274-316).  Returns the input list
unchanged when the embedding list has a different length; otherwise performs
the single left-to-right swap pass and reassigns new_position. -/
def optimize_continuity {E : Type} [Inhabited E] (sim : E → E → ℚ)
    (pages : List Page) (embeddings : List E) : List Page :=
  if embeddings.length ≠ pages.length then pages
  else
    let continuity_scores := initScoresOf sim embeddings
    let res := (List.range continuity_scores.length).foldl
      (contStep sim continuity_scores) (pages, embeddings)
    assignPositions res.1

/-- Sort key for pages carrying a detected number: the number itself
(ordering.py line 127). -/
def numberSortKey (p : Page) : List ℚ := [(((detectedNum p).getD 0 : ℕ) : ℚ)]

/-- Sort key for pages without a usable number (ordering.py lines 130-136):
(0, section value) when a section numeric value exists, else
(1, original index). -/
def sectionSortKey (p : Page) : List ℚ :=
  match p.section_numeric_value with
  | some v => [0, v]
  | none => [1, (p.page_index : ℚ)]

/-- High-confidence number test used by order_pages_by_page_numbers
(ordering.py line 121): a detected number with confidence strictly above 0.5. -/
def hasConfidentNumber (p : Page) : Bool :=
  (detectedNum p).isSome && decide (detectedConf p > mkRat 1 2)

/-- order_pages_by_page_numbers (ordering.py lines 104-147). -/
def order_pages_by_page_numbers (pages : List Page) : List Page :=
  let pages_with_numbers := pages.filter hasConfidentNumber
  let pages_without_numbers := pages.filter (fun p => !(hasConfidentNumber p))
  assignPositions
    (pySortBy numberSortKey pages_with_numbers ++ pySortBy sectionSortKey pages_without_numbers)

/-- Content pages: pages whose title is not the blank sentinel
(ordering.py line 173). -/
def contentPagesOf (pages : List Page) : List Page := pages.filter (fun p => !(isBlank p))

/-- Blank pages (ordering.py line 172). -/
def blankPagesOf (pages : List Page) : List Page := pages.filter isBlank

/-- Content pages carrying any detected number, regardless of confidence
(ordering.py lines 179-182 and 186-189). -/
def numberedContentOf (content : List Page) : List Page :=
  content.filter (fun p => (detectedNum p).isSome)

/-- Page-number coverage (ordering.py line 183). -/
def coverageOf (content : List Page) : ℚ :=
  if content.length = 0 then 0
  else mkRat (numberedContentOf content).length content.length

/-- Numbered content pages sorted by their detected number
(ordering.py lines 186-189). -/
def sortedNumberedOf (content : List Page) : List Page :=
  pySortBy numberSortKey (numberedContentOf content)

/-- Absolute gaps between consecutive detected numbers of the sorted numbered
pages (ordering.py lines 193-197). -/
def gapsOf (sortedNumbered : List Page) : List ℕ :=
  (sortedNumbered.zip sortedNumbered.tail).map
    (fun pq => ((((detectedNum pq.2).getD 0 : ℕ) : ℤ) - (((detectedNum pq.1).getD 0 : ℕ) : ℤ)).natAbs)

/-- Sequential-consistency score (ordering.py lines 191-200): 1.0 unless more
than two numbered pages exist and their mean gap exceeds 1.5, in which case 0.5. -/
def sequentialScoreOf (content : List Page) : ℚ :=
  let numbered := sortedNumberedOf content
  if numbered.length > 2 then
    let gaps := gapsOf numbered
    if mkRat gaps.sum gaps.length > mkRat 3 2 then mkRat 1 2 else 1
  else 1

/-- Strategy-selection test (ordering.py line 202):
coverage at least 0.7 and sequential score above 0.7. -/
def usePageNumbers (content : List Page) : Bool :=
  decide (coverageOf content ≥ mkRat 7 10) && decide (sequentialScoreOf content > mkRat 7 10)

/-- Structure-path sort key (ordering.py lines 238-248):
(0, section value, 0, index) when a section numeric value exists, else
(1, 0, position hint defaulting to 500, index). -/
def contentSortKey (p : Page) : List ℚ :=
  match p.section_numeric_value with
  | some v => [0, v, 0, (p.page_index : ℚ)]
  | none => [1, 0, ((p.position_hint.getD 500 : ℕ) : ℚ), (p.page_index : ℚ)]

/-- Content pages sorted by the structure-path key, with positions assigned
(ordering.py lines 250-254). -/
def structSorted (content : List Page) : List Page :=
  assignPositions (pySortBy contentSortKey content)

/-- Embeddings of the sorted content pages, indexed by page_index
(ordering.py line 261). -/
def structEmbsOf {E : Type} [Inhabited E] (content : List Page) (embeddings : List E) : List E :=
  (structSorted content).map (fun p => embeddings.getD p.page_index default)

/-- Structure-order path of the hybrid engine (ordering.py lines 220-262,
print statements dropped): sort content pages by contentSortKey, assign
positions, and run the continuity pass when more than three content pages
exist, feeding it the embeddings indexed by page_index in sorted order. -/
def structureOrderedOf {E : Type} [Inhabited E] (sim : E → E → ℚ)
    (content : List Page) (embeddings : List E) : List Page :=
  if content.length > 3 then
    optimize_continuity sim (structSorted content) (structEmbsOf content embeddings)
  else structSorted content

/-- Ordering metadata dict (ordering.py lines 176 and 204-212).  The blank-only
early return records only total_pages and ordering_method; the optional fields
model the keys absent from that dict. -/
structure OrderingMetadata where
  total_pages : Nat
  ordering_method : String
  content_pages : Option Nat
  blank_pages : Option Nat
  pages_with_numbers : Option Nat
  page_number_coverage : Option ℚ
  sequential_score : Option ℚ
deriving DecidableEq

/-- Python round(x, 2): round half to even at two decimal places.  The source
applies it to floats; the model applies the same rounding to the exact
rational. -/
def round2 (q : ℚ) : ℚ :=
  let s : ℚ := q * 100
  let f : ℤ := ⌊s⌋
  let r : ℚ := s - (f : ℚ)
  let n : ℤ :=
    if r < mkRat 1 2 then f
    else if r > mkRat 1 2 then f + 1
    else if f % 2 = 0 then f else f + 1
  mkRat n 100

/-- Metadata of the blank-only early return (ordering.py line 176). -/
def blankOnlyMeta (n : Nat) : OrderingMetadata :=
  { total_pages := n, ordering_method := "blank_only",
    content_pages := none, blank_pages := none, pages_with_numbers := none,
    page_number_coverage := none, sequential_score := none }

/-- Metadata recorded on the main path (ordering.py lines 204-217 and 257). -/
def hybridMeta (pages : List Page) : OrderingMetadata :=
  let content := contentPagesOf pages
  { total_pages := pages.length,
    ordering_method :=
      if usePageNumbers content then "page_numbers_primary" else "section_numbers_primary",
    content_pages := some content.length,
    blank_pages := some (blankPagesOf pages).length,
    pages_with_numbers := some (numberedContentOf content).length,
    page_number_coverage := some (round2 (coverageOf content)),
    sequential_score := some (round2 (sequentialScoreOf content)) }

/-- order_pages_hybrid (ordering.py lines 150-271).  Separates blank pages,
returns them untouched when no content page exists (the early return at line
175-176, which assigns no new_position), otherwise orders the content pages by
the selected strategy, appends the blank pages and assigns final positions. -/
def order_pages_hybrid {E : Type} [Inhabited E] (sim : E → E → ℚ)
    (pages : List Page) (embeddings : List E) : List Page × OrderingMetadata :=
  let blank_pages := blankPagesOf pages
  let content_pages := contentPagesOf pages
  if content_pages.isEmpty then
    (blank_pages, blankOnlyMeta pages.length)
  else
    let ordered :=
      if usePageNumbers content_pages then order_pages_by_page_numbers content_pages
      else structureOrderedOf sim content_pages embeddings
    (assignPositions (ordered ++ blank_pages), hybridMeta pages)

/-! Section-number comparison and encoding (src/modules/headings.py). -/

/-- Hierarchical part-by-part comparison of parsed section numbers
(headings.py lines 262-279): compare componentwise, a strict prefix is
smaller. -/
def cmpParts : List ℕ → List ℕ → ℤ
  | [], [] => 0
  | [], _ :: _ => -1
  | _ :: _, [] => 1
  | a :: p, b :: q => if a < b then -1 else if b < a then 1 else cmpParts p q

/-- Split a character sequence at dots, as "num.split(TheDot)" does. -/
def splitOnDot : List Char → List (List Char)
  | [] => [[]]
  | c :: t =>
    if c = '.' then [] :: splitOnDot t
    else
      match splitOnDot t with
      | [] => [[c]]
      | g :: gs => (c :: g) :: gs

/-- Decimal value of a digit sequence, as Python int(x) on digit strings. -/
def digitsToNat (cs : List Char) : ℕ :=
  cs.foldl (fun n c => 10 * n + (c.toNat - '0'.toNat)) 0

/-- Parsed parts of a dotted section-number string
(headings.py line 263: int(x) for x in num.split(TheDot)). -/
def sectionParts (s : String) : List ℕ := (splitOnDot s.data).map digitsToNat

/-- compare_section_numbers (headings.py lines 247-279).  Empty strings model
the falsy inputs handled first. -/
def compare_section_numbers (num1 num2 : String) : ℤ :=
  if num1 = "" ∧ num2 = "" then 0
  else if num1 = "" then 1
  else if num2 = "" then -1
  else cmpParts (sectionParts num1) (sectionParts num2)

/-- Hierarchical numeric encoding of parsed section parts as computed by
extract_section_number (headings.py lines 330-334 and 341-344): the head is the
integer component, level k contributes part / 1000^k. -/
def encodeParts (parts : List ℕ) : ℚ :=
  match parts with
  | [] => 0
  | p0 :: rest =>
    rest.enum.foldl (fun acc ip => acc + mkRat (ip.2 : ℤ) (1000 ^ (ip.1 + 1))) (p0 : ℚ)

/-- Recursive form of the encoding, used in proofs:
encodeR (a :: r) = a + encodeR r / 1000. -/
def encodeR : List ℕ → ℚ
  | [] => 0
  | a :: r => (a : ℚ) + encodeR r / 1000

/-- Boundedness of sub-level parts: the condition under which the numeric
encoding reproduces the hierarchical order. -/
def subOK (l : List ℕ) : Prop := ∀ x ∈ l, 1 ≤ x ∧ x ≤ 999

instance subOKDecidable (l : List ℕ) : Decidable (subOK l) :=
  List.decidableBAll _ l

/-! Missing-page detection (src/modules/page_numbers.py). -/

/-- Sort key for (page_index, page_number) pairs: the detected number
(page_numbers.py line 49). -/
def pairNumKey (pr : ℕ × ℕ) : List ℚ := [((pr.2 : ℕ) : ℚ)]

/-- detect_missing_pages (page_numbers.py lines 37-61). -/
def detect_missing_pages (pages_with_numbers : List (ℕ × ℕ)) : List ℕ :=
  if pages_with_numbers.length < 2 then []
  else
    let sorted_pages := pySortBy pairNumKey pages_with_numbers
    let page_numbers := sorted_pages.map Prod.snd
    ((page_numbers.zip page_numbers.tail).map
      (fun cn => if cn.2 - cn.1 > 1 then List.range' (cn.1 + 1) (cn.2 - cn.1 - 1) else [])).flatten

/-! Duplicate detection (src/modules/duplicates.py). -/

/-- Whitespace characters stripped by Python str.strip(). -/
def isPySpace (c : Char) : Bool :=
  c = ' ' || c = '\t' || c = '\n' || c = '\r' || c = '\x0B' || c = '\x0C'

/-- compute_page_hash (duplicates.py lines 7-22): normalize the text by
stripping surrounding whitespace and lowercasing.  The SHA-256 digest is
modelled by the normalized character sequence itself, since the code only
compares digests for equality. -/
def compute_page_hash (text : String) : List Char :=
  (((text.data.dropWhile isPySpace).reverse.dropWhile isPySpace).reverse).map Char.toLower

/-- Hashes of all pages, in page order. -/
def pageHashes (pages : List Page) : List (List Char) :=
  pages.map (fun p => compute_page_hash p.text)

/-- First occurrences of each value, in order of first occurrence: the key
order of the Python dict from insertion. -/
def firstOccurrencesAux : List (List Char) → List (List Char) → List (List Char)
  | _, [] => []
  | seen, a :: r =>
    if a ∈ seen then firstOccurrencesAux seen r
    else a :: firstOccurrencesAux (a :: seen) r

/-- Distinct hash values in order of first occurrence. -/
def firstOccurrences (l : List (List Char)) : List (List Char) :=
  firstOccurrencesAux [] l

/-- Indices of the pages sharing a given hash, in increasing order — the list
the Python dict accumulates for one hash key. -/
def hashGroup (pages : List Page) (h : List Char) : List ℕ :=
  (List.range pages.length).filter (fun i => decide ((pageHashes pages).getD i [] = h))

/-- find_exact_duplicates (duplicates.py lines 25-48): group the page indices
by hash (each group lists its indices in increasing order, as the dict append
loop produces) and keep the groups with more than one member. -/
def find_exact_duplicates (pages : List Page) : List (List ℕ) :=
  ((firstOccurrences (pageHashes pages)).map (hashGroup pages)).filter (fun g => g.length > 1)

/-- Flag initialization of mark_duplicates (duplicates.py lines 141-145). -/
def clearDupFlags (pages : List Page) : List Page :=
  pages.map (fun p =>
    { p with is_exact_duplicate := false, is_near_duplicate := false, duplicate_of := [] })

/-- Field update performed on an exact duplicate (duplicates.py lines
152-153). -/
def flagUpd (orig_idx : ℕ) (p : Page) : Page :=
  { p with is_exact_duplicate := true, duplicate_of := p.duplicate_of ++ [orig_idx] }

/-- Flag one exact duplicate in place (duplicates.py lines 151-153). -/
def flagExactAt (ps : List Page) (dup_idx orig_idx : ℕ) : List Page :=
  ps.modify (flagUpd orig_idx) dup_idx

/-- Processing of one exact-duplicate group (duplicates.py lines 148-153):
keep the first member, flag the others. -/
def exactGroupStep (ps : List Page) (g : List ℕ) : List Page :=
  if g.length > 1 then
    match g with
    | [] => ps
    | orig :: rest => rest.foldl (fun ps' d => flagExactAt ps' d orig) ps
  else ps

/-- mark_duplicates (duplicates.py lines 132-159): clear the flags, flag every
member but the first of each exact group, then flag the higher index of every
near pair. -/
def mark_duplicates (pages : List Page) (exact_duplicates : List (List ℕ))
    (near_duplicates : List (ℕ × ℕ × ℚ)) : List Page :=
  let ps0 := clearDupFlags pages
  let ps1 := exact_duplicates.foldl exactGroupStep ps0
  near_duplicates.foldl (fun ps t =>
    ps.modify (fun p =>
      { p with is_near_duplicate := true, duplicate_of := p.duplicate_of ++ [t.1],
               duplicate_similarity := some t.2.2 }) t.2.1) ps1

/-- Least page index sharing the hash of page i, the head of its hash group. -/
def firstHashIdx (pages : List Page) (i : ℕ) : ℕ :=
  (hashGroup pages ((pageHashes pages).getD i [])).headD 0

/-! Adapter validation and processor dispatch
(src/modules/llm_ordering.py, src/processor.py). -/

/-- Parsed JSON object of the adapter response (the result of json.loads at
llm_ordering.py line 132); every field is optional, as dict.get models. -/
structure GeminiResponse where
  document_type : Option String
  confidence : Option ℚ
  reasoning : Option String
  detected_sections : Option (List String)
  correct_order : Option (List ℕ)
deriving DecidableEq

/-- Metadata dict returned by the adapter: either an error dict or the
success metadata (llm_ordering.py lines 154-165, 178, 182). -/
structure GeminiMetadata where
  error : Option String
  ordering_method : Option String
  document_type : Option String
  confidence : Option ℚ
  reasoning : Option String
  total_pages : Option ℕ
deriving DecidableEq

/-- Error metadata dict of the adapter. -/
def geminiErrorMeta (reason : String) : GeminiMetadata :=
  { error := some reason, ordering_method := none, document_type := none,
    confidence := none, reasoning := none, total_pages := none }

/-- Python set(a) == set(b) on index lists: mutual containment. -/
def sameElements (a b : List ℕ) : Bool :=
  a.all (fun x => decide (x ∈ b)) && b.all (fun x => decide (x ∈ a))

/-- order_pages_with_gemini from the parsed response onward (llm_ordering.py
lines 132-182).  The none argument models a response whose JSON cannot be
parsed; the raise/except pairs of the source become the error branches, so no
exception escapes.  On success the pages are reordered by the returned indices
and repositioned. -/
def order_pages_with_gemini (pages : List Page) (parsed : Option GeminiResponse) :
    Option (List Page) × GeminiMetadata :=
  match parsed with
  | none => (none, geminiErrorMeta "invalid_json_response")
  | some result =>
    match result.correct_order with
    | none => (none, geminiErrorMeta "Response missing correct_order field")
    | some order_indices =>
      if order_indices.length ≠ pages.length then
        (none, geminiErrorMeta "Order length differs from document page count")
      else if !(sameElements order_indices (List.range pages.length)) then
        (none, geminiErrorMeta "Invalid page indices in order")
      else
        (some (assignPositions (order_indices.map (fun idx => pages.getD idx default))),
         { error := none, ordering_method := some "gemini_ai_structured",
           document_type := result.document_type, confidence := result.confidence,
           reasoning := result.reasoning, total_pages := some pages.length })

/-- Ordering asserted by claim C3 for the number-order path, following the
claim wording: every page with a detected page number (regardless of
confidence) sorted by its number, then all pages without a detected number
sorted by section value when present, else by original index, then the blank
pages. -/
def claimC3Order (pages : List Page) : List Page :=
  let content := contentPagesOf pages
  pySortBy numberSortKey (content.filter (fun p => (detectedNum p).isSome)) ++
    pySortBy sectionSortKey (content.filter (fun p => !(detectedNum p).isSome)) ++
    blankPagesOf pages

/-- Continuity-pass step as claim C8 words it: for an adjacent pair with
similarity below 0.3, swap the next two pages whenever that raises the local
similarity by more than 0.2 — with no requirement that a further page beyond
the swapped pair exist. -/
def claimC8Step {E : Type} [Inhabited E] (sim : E → E → ℚ) (scores : List ℚ)
    (st : List Page × List E) (i : ℕ) : List Page × List E :=
  if scores.getD i 0 < mkRat 3 10 ∧ i + 2 < st.1.length ∧
      sim (st.2.getD i default) (st.2.getD (i + 2) default) > scores.getD i 0 + mkRat 2 10 then
    (swapPair st.1 (i + 1), swapPair st.2 (i + 1))
  else st

/-- Continuity pass as described by claim C8 (left-to-right over all adjacent
pairs, no extra page required beyond the swapped pair). -/
def claimC8Pass {E : Type} [Inhabited E] (sim : E → E → ℚ)
    (pages : List Page) (embeddings : List E) : List Page :=
  let scores := initScoresOf sim embeddings
  ((List.range scores.length).foldl (claimC8Step sim scores) (pages, embeddings)).1

/-- Corrected description of the continuity pass, written as a left-to-right
recursion: at step i the next two pages are swapped exactly when the
precomputed similarity of pair i is below 0.3, positions i+2 and i+3 both
exist, and the similarity of the current embeddings at i and i+2 exceeds the
precomputed pair similarity by more than 0.2. -/
def specPassAux {E : Type} [Inhabited E] (sim : E → E → ℚ) (scores : List ℚ) :
    ℕ → ℕ → List Page × List E → List Page × List E
  | 0, _, st => st
  | fuel + 1, i, st =>
    specPassAux sim scores fuel (i + 1)
      (if scores.getD i 0 < mkRat 3 10 ∧ i + 2 < st.1.length ∧ i + 3 < st.1.length ∧
          sim (st.2.getD i default) (st.2.getD (i + 2) default) > scores.getD i 0 + mkRat 2 10 then
        (swapPair st.1 (i + 1), swapPair st.2 (i + 1))
      else st)

/-- Step-7 reordering dispatch of process_pdf_complete (processor.py lines
158-174): when Gemini is requested, available and a key is present, try the
adapter and fall back to the hybrid engine whenever it returns no page list;
otherwise run the hybrid engine directly. -/
def processStep7 {E : Type} [Inhabited E] (sim : E → E → ℚ)
    (use_gemini gemini_available : Bool) (gemini_api_key : Option String)
    (parsed : Option GeminiResponse) (pages : List Page) (embeddings : List E) :
    List Page × (OrderingMetadata ⊕ GeminiMetadata) :=
  if use_gemini && gemini_available && gemini_api_key.isSome then
    match order_pages_with_gemini pages parsed with
    | (some ordered, meta) => (ordered, Sum.inr meta)
    | (none, _) =>
      let h := order_pages_hybrid sim pages embeddings
      (h.1, Sum.inl h.2)
  else
    let h := order_pages_hybrid sim pages embeddings
    (h.1, Sum.inl h.2)

/-! Concrete documents used as test fixtures. -/

/-- Convenience constructor for fixture pages: a page with the given index,
title, text and number detection, and no section data. -/
def mkPage (idx : ℕ) (title text : String) (num : Option ℕ) (conf : ℚ) : Page :=
  { page_index := idx, text := text, title := title,
    page_number_detected := (num, conf), section_numeric_value := none,
    position_hint := none, new_position := none,
    is_exact_duplicate := false, is_near_duplicate := false,
    duplicate_of := [], duplicate_similarity := none }

/-- Zero similarity collaborator (the degenerate embedding provider the spec
requires when embeddings are unavailable). -/
def simZero : ℕ → ℕ → ℚ := fun _ _ => 0

/-- Fixture: a document whose two pages are both blank. -/
def pagesAllBlank : List Page :=
  [mkPage 0 "[BLANK PAGE]" "" none 0, mkPage 1 "[BLANK PAGE]" "" none 0]

/-- Fixture: four content pages, all with detected numbers 1..4, but page 0
detected at exactly confidence 0.5. -/
def pagesLowConf : List Page :=
  [mkPage 0 "A" "a" (some 1) (mkRat 1 2),
   mkPage 1 "B" "b" (some 2) 1,
   mkPage 2 "C" "c" (some 3) 1,
   mkPage 3 "D" "d" (some 4) 1]

/-- Fixture: four content pages without any detected numbers or sections, so
the structure path with the continuity pass runs. -/
def pagesStruct : List Page :=
  [mkPage 0 "A" "a" none 0, mkPage 1 "B" "b" none 0,
   mkPage 2 "C" "c" none 0, mkPage 3 "D" "d" none 0]

/-- Similarity table for the continuity-pass fixture: pair (1,2) has
similarity 0.1, every other pair 0.9. -/
def simStruct : ℕ → ℕ → ℚ := fun a b =>
  if (a = 1 ∧ b = 2) ∨ (a = 2 ∧ b = 1) then mkRat 1 10 else mkRat 9 10

/-- Fixture: four pages with texts A, B, A, C — page 2 an exact duplicate of
page 0. -/
def pagesDup : List Page :=
  [mkPage 0 "tA" "A" none 0, mkPage 1 "tB" "B" none 0,
   mkPage 2 "tA2" "A" none 0, mkPage 3 "tC" "C" none 0]

/-- Fixture: a two-page document for the adapter-fallback claim. -/
def pagesTwo : List Page := [mkPage 0 "A" "a" none 0, mkPage 1 "B" "b" none 0]

/-- Fixture: a parsed adapter response whose correct_order repeats an index. -/
def respDupIdx : GeminiResponse :=
  { document_type := none, confidence := none, reasoning := none,
    detected_sections := none, correct_order := some [0, 0] }

/-! Lemmas about the stable sort. -/

theorem insertLe_perm {α : Type} (le : α → α → Bool) (a : α) (l : List α) :
    (insertLe le a l).Perm (a :: l) := by
  induction l with
  | nil => exact List.Perm.refl _
  | cons b t ih =>
    simp only [insertLe]
    split
    · exact List.Perm.refl _
    · exact (ih.cons b).trans (List.Perm.swap a b t)

theorem sortLe_perm {α : Type} (le : α → α → Bool) (l : List α) : (sortLe le l).Perm l := by
  induction l with
  | nil => exact List.Perm.refl _
  | cons a t ih => exact (insertLe_perm le a (sortLe le t)).trans (ih.cons a)

theorem insertLe_pairwise {α : Type} {le : α → α → Bool}
    (htrans : ∀ a b c, le a b = true → le b c = true → le a c = true)
    (htot : ∀ a b, le a b = true ∨ le b a = true)
    (a : α) (l : List α) (h : l.Pairwise (fun x y => le x y = true)) :
    (insertLe le a l).Pairwise (fun x y => le x y = true) := by
  induction l with
  | nil => simp [insertLe]
  | cons b t ih =>
    rcases List.pairwise_cons.mp h with ⟨hb, ht⟩
    simp only [insertLe]
    split
    case isTrue hab =>
      refine List.pairwise_cons.mpr ⟨?_, h⟩
      intro x hx
      rcases List.mem_cons.mp hx with rfl | hx
      · exact hab
      · exact htrans _ _ _ hab (hb x hx)
    case isFalse hab =>
      refine List.pairwise_cons.mpr ⟨?_, ih ht⟩
      intro x hx
      have hx' := (insertLe_perm le a t).mem_iff.mp hx
      rcases List.mem_cons.mp hx' with rfl | hx''
      · rcases htot x b with h1 | h1
        · exact absurd h1 (by simpa using hab)
        · exact h1
      · exact hb x hx''

theorem sortLe_pairwise {α : Type} {le : α → α → Bool}
    (htrans : ∀ a b c, le a b = true → le b c = true → le a c = true)
    (htot : ∀ a b, le a b = true ∨ le b a = true)
    (l : List α) : (sortLe le l).Pairwise (fun x y => le x y = true) := by
  induction l with
  | nil => simp [sortLe]
  | cons a t ih => exact insertLe_pairwise htrans htot a _ ih

theorem lexLtQ_trans (a : List ℚ) : ∀ b c : List ℚ,
    lexLtQ a b = true → lexLtQ b c = true → lexLtQ a c = true := by
  induction a with
  | nil =>
    intro b c h1 h2
    cases c with
    | nil =>
      cases b with
      | nil => simp [lexLtQ] at h1
      | cons y ys => simp [lexLtQ] at h2
    | cons z zs => simp [lexLtQ]
  | cons x xs ih =>
    intro b c h1 h2
    cases b with
    | nil => simp [lexLtQ] at h1
    | cons y ys =>
      cases c with
      | nil => simp [lexLtQ] at h2
      | cons z zs =>
        simp only [lexLtQ] at h1 h2 ⊢
        by_cases hxy : x < y
        · by_cases hyz : y < z
          · simp [hxy.trans hyz]
          · by_cases hzy : z < y
            · simp [hyz, hzy] at h2
            · have hyz' : y = z := le_antisymm (not_lt.mp hzy) (not_lt.mp hyz)
              subst hyz'
              simp [hxy]
        · by_cases hyx : y < x
          · simp [hxy, hyx] at h1
          · have hxy' : x = y := le_antisymm (not_lt.mp hyx) (not_lt.mp hxy)
            subst hxy'
            by_cases hyz : x < z
            · simp [hyz]
            · by_cases hzy : z < x
              · simp [hyz, hzy] at h2
              · have hyz' : x = z := le_antisymm (not_lt.mp hzy) (not_lt.mp hyz)
                subst hyz'
                simp only [lt_irrefl, if_false] at h1 h2 ⊢
                exact ih _ _ h1 h2

theorem lexLtQ_connex (a : List ℚ) : ∀ b : List ℚ,
    lexLtQ a b = false → lexLtQ b a = false → a = b := by
  induction a with
  | nil =>
    intro b h1 _
    cases b with
    | nil => rfl
    | cons y ys => simp [lexLtQ] at h1
  | cons x xs ih =>
    intro b h1 h2
    cases b with
    | nil => simp [lexLtQ] at h2
    | cons y ys =>
      simp only [lexLtQ] at h1 h2
      by_cases hxy : x < y
      · simp [hxy] at h1
      · by_cases hyx : y < x
        · simp [hxy, hyx] at h2
        · have hxy' : x = y := le_antisymm (not_lt.mp hyx) (not_lt.mp hxy)
          subst hxy'
          simp only [lt_irrefl, if_false] at h1 h2
          rw [ih ys h1 h2]

theorem keyedLe_trans {α : Type} (key : α → List ℚ) :
    ∀ x y z : ℕ × α, keyedLe key x y = true → keyedLe key y z = true →
      keyedLe key x z = true := by
  intro x y z hxy hyz
  simp only [keyedLe, Bool.or_eq_true, Bool.and_eq_true, decide_eq_true_eq] at hxy hyz ⊢
  rcases hxy with h1 | ⟨he1, hi1⟩
  · rcases hyz with h2 | ⟨he2, hi2⟩
    · exact Or.inl (lexLtQ_trans _ _ _ h1 h2)
    · exact Or.inl (by rw [← he2]; exact h1)
  · rcases hyz with h2 | ⟨he2, hi2⟩
    · exact Or.inl (by rw [he1]; exact h2)
    · exact Or.inr ⟨he1.trans he2, hi1.trans hi2⟩

theorem keyedLe_total {α : Type} (key : α → List ℚ) :
    ∀ x y : ℕ × α, keyedLe key x y = true ∨ keyedLe key y x = true := by
  intro x y
  simp only [keyedLe, Bool.or_eq_true, Bool.and_eq_true, decide_eq_true_eq]
  cases h1 : lexLtQ (key x.2) (key y.2)
  · cases h2 : lexLtQ (key y.2) (key x.2)
    · have he := lexLtQ_connex _ _ h1 h2
      rcases Nat.le_total x.1 y.1 with hi | hi
      · exact Or.inl (Or.inr ⟨he, hi⟩)
      · exact Or.inr (Or.inr ⟨he.symm, hi⟩)
    · exact Or.inr (Or.inl rfl)
  · exact Or.inl (Or.inl rfl)

theorem pySortBy_perm {α : Type} (key : α → List ℚ) (l : List α) :
    (pySortBy key l).Perm l := by
  have h := (sortLe_perm (keyedLe key) l.enum).map Prod.snd
  rwa [List.enum_map_snd] at h

theorem pySortBy_pairwise_key {α : Type} (key : α → List ℚ) (l : List α) :
    (pySortBy key l).Pairwise (fun p q => lexLtQ (key p) (key q) = true ∨ key p = key q) := by
  unfold pySortBy
  rw [List.pairwise_map]
  refine (sortLe_pairwise (keyedLe_trans key) (keyedLe_total key) l.enum).imp ?_
  intro x y hxy
  simp only [keyedLe, Bool.or_eq_true, Bool.and_eq_true, decide_eq_true_eq] at hxy
  tauto

theorem pySortBy_pairwise_idx {α : Type} (key : α → List ℚ) (f : α → ℕ) (l : List α)
    (hf : l.Pairwise (fun a b => f a < f b)) :
    (pySortBy key l).Pairwise (fun p q =>
      lexLtQ (key p) (key q) = true ∨ (key p = key q ∧ f p ≤ f q)) := by
  unfold pySortBy
  rw [List.pairwise_map]
  refine (sortLe_pairwise (keyedLe_trans key) (keyedLe_total key) l.enum).imp_of_mem ?_
  intro x y hx hy hxy
  simp only [keyedLe, Bool.or_eq_true, Bool.and_eq_true, decide_eq_true_eq] at hxy
  rcases hxy with h | ⟨he, hi⟩
  · exact Or.inl h
  · refine Or.inr ⟨he, ?_⟩
    have hx' : x ∈ l.enum := ((sortLe_perm (keyedLe key) l.enum).mem_iff).mp hx
    have hy' : y ∈ l.enum := ((sortLe_perm (keyedLe key) l.enum).mem_iff).mp hy
    rcases List.getElem?_eq_some.mp (List.mem_enum_iff_getElem?.mp hx') with ⟨hx1, hx2⟩
    rcases List.getElem?_eq_some.mp (List.mem_enum_iff_getElem?.mp hy') with ⟨hy1, hy2⟩
    rcases Nat.lt_or_ge x.1 y.1 with hlt | hge
    · have h := List.pairwise_iff_get.mp hf ⟨x.1, hx1⟩ ⟨y.1, hy1⟩ hlt
      simp only [List.get_eq_getElem, hx2, hy2] at h
      exact le_of_lt h
    · have hxy1 : x.1 = y.1 := le_antisymm hi hge
      have hx2' : l[x.1]? = some x.2 := List.getElem?_eq_some.mpr ⟨hx1, hx2⟩
      have hy2' : l[y.1]? = some y.2 := List.getElem?_eq_some.mpr ⟨hy1, hy2⟩
      rw [hxy1, hy2'] at hx2'
      rw [Option.some.inj hx2']

/-! Lemmas about swaps and position assignment. -/

theorem swapPair_cons {α : Type} (a : α) (l : List α) (i : ℕ) :
    swapPair (a :: l) (i + 1) = a :: swapPair l i := by
  unfold swapPair
  cases h1 : l[i]? <;> cases h2 : l[(i + 1)]? <;>
    simp [List.get?_eq_getElem?, List.getElem?_cons_succ, h1, h2, List.set_cons_succ]

theorem swapPair_perm {α : Type} : ∀ (i : ℕ) (l : List α), (swapPair l i).Perm l := by
  intro i
  induction i with
  | zero =>
    intro l
    match l with
    | [] => exact List.Perm.refl _
    | [a] => exact List.Perm.refl _
    | a :: b :: t => exact List.Perm.swap a b t
  | succ i ih =>
    intro l
    cases l with
    | nil => exact List.Perm.refl _
    | cons a t =>
      rw [swapPair_cons]
      exact (ih t).cons a

theorem assignPositions_map {β : Type} (f : Page → β)
    (hf : ∀ (p : Page) (i : ℕ), f { p with new_position := some i } = f p) (l : List Page) :
    (assignPositions l).map f = l.map f := by
  unfold assignPositions
  rw [List.map_map]
  have h : (f ∘ fun ip : ℕ × Page => { ip.2 with new_position := some ip.1 })
      = f ∘ Prod.snd := by
    funext ip
    exact hf ip.2 ip.1
  rw [h, ← List.map_map, List.enum_map_snd]

theorem assignPositions_map_strip (l : List Page) :
    (assignPositions l).map stripPos = l.map stripPos :=
  assignPositions_map stripPos (fun _ _ => rfl) l

theorem assignPositions_map_title (l : List Page) :
    (assignPositions l).map Page.title = l.map Page.title :=
  assignPositions_map Page.title (fun _ _ => rfl) l

theorem assignPositions_length (l : List Page) :
    (assignPositions l).length = l.length := by
  simp [assignPositions, List.enum_length]

theorem assignPositions_strip_inner (l : List Page) :
    assignPositions l = assignPositions (l.map stripPos) := by
  unfold assignPositions
  rw [List.enum_map, List.map_map]
  rfl

theorem assignPositions_eq_of_strip {l₁ l₂ : List Page}
    (h : l₁.map stripPos = l₂.map stripPos) : assignPositions l₁ = assignPositions l₂ := by
  rw [assignPositions_strip_inner l₁, h, ← assignPositions_strip_inner l₂]

/-! Lemmas about the continuity pass. -/

theorem contStep_fst_perm {E : Type} [Inhabited E] (sim : E → E → ℚ) (scores : List ℚ)
    (st : List Page × List E) (i : ℕ) : ((contStep sim scores st i).1).Perm st.1 := by
  unfold contStep
  split
  · split
    · split
      · exact swapPair_perm _ _
      · exact List.Perm.refl _
    · exact List.Perm.refl _
  · exact List.Perm.refl _

theorem foldl_contStep_fst_perm {E : Type} [Inhabited E] (sim : E → E → ℚ) (scores : List ℚ) :
    ∀ (idxs : List ℕ) (st : List Page × List E),
      ((idxs.foldl (contStep sim scores) st).1).Perm st.1 := by
  intro idxs
  induction idxs with
  | nil => intro st; exact List.Perm.refl _
  | cons i r ih =>
    intro st
    exact (ih (contStep sim scores st i)).trans (contStep_fst_perm sim scores st i)

theorem optimize_continuity_strip_perm {E : Type} [Inhabited E] (sim : E → E → ℚ)
    (pages : List Page) (embs : List E) :
    ((optimize_continuity sim pages embs).map stripPos).Perm (pages.map stripPos) := by
  unfold optimize_continuity
  split
  · exact List.Perm.refl _
  · rw [assignPositions_map_strip]
    exact (foldl_contStep_fst_perm sim _ _ _).map stripPos

theorem title_comp_strip : Page.title ∘ stripPos = Page.title := funext fun _ => rfl

theorem map_title_of_strip_perm {l₁ l₂ : List Page}
    (h : (l₁.map stripPos).Perm (l₂.map stripPos)) :
    (l₁.map Page.title).Perm (l₂.map Page.title) := by
  have h2 := h.map Page.title
  rwa [List.map_map, List.map_map, title_comp_strip] at h2

/-! Lemmas about the hybrid engine branches. -/

theorem obpn_strip_perm (pages : List Page) :
    ((order_pages_by_page_numbers pages).map stripPos).Perm (pages.map stripPos) := by
  unfold order_pages_by_page_numbers
  rw [assignPositions_map_strip, List.map_append]
  have h1 := (pySortBy_perm numberSortKey (pages.filter hasConfidentNumber)).map stripPos
  have h2 := (pySortBy_perm sectionSortKey
    (pages.filter (fun p => !(hasConfidentNumber p)))).map stripPos
  refine (h1.append h2).trans ?_
  have h3 := (List.filter_append_perm hasConfidentNumber pages).map stripPos
  rwa [List.map_append] at h3

theorem structSorted_strip_perm (content : List Page) :
    ((structSorted content).map stripPos).Perm (content.map stripPos) := by
  unfold structSorted
  rw [assignPositions_map_strip]
  exact (pySortBy_perm contentSortKey content).map stripPos

theorem structureOrderedOf_strip_perm {E : Type} [Inhabited E] (sim : E → E → ℚ)
    (content : List Page) (embs : List E) :
    ((structureOrderedOf sim content embs).map stripPos).Perm (content.map stripPos) := by
  unfold structureOrderedOf
  split
  · exact (optimize_continuity_strip_perm sim _ _).trans (structSorted_strip_perm content)
  · exact structSorted_strip_perm content

theorem content_isEmpty_false {pages : List Page} (hc : contentPagesOf pages ≠ []) :
    (contentPagesOf pages).isEmpty = false := by
  cases h : contentPagesOf pages with
  | nil => exact absurd h hc
  | cons a t => rfl

theorem hybrid_of_content_nonempty {E : Type} [Inhabited E] (sim : E → E → ℚ)
    (pages : List Page) (embs : List E) (hc : contentPagesOf pages ≠ []) :
    order_pages_hybrid sim pages embs =
      (assignPositions ((if usePageNumbers (contentPagesOf pages)
          then order_pages_by_page_numbers (contentPagesOf pages)
          else structureOrderedOf sim (contentPagesOf pages) embs) ++ blankPagesOf pages),
       hybridMeta pages) := by
  unfold order_pages_hybrid
  simp only [content_isEmpty_false hc, Bool.false_eq_true, if_false]

theorem contentPagesOf_mem_title {pages : List Page} {q : Page}
    (hq : q ∈ contentPagesOf pages) : q.title ≠ blankTitle := by
  have h := (List.mem_filter.mp hq).2
  simp only [isBlank, Bool.not_eq_true', decide_eq_false_iff_not] at h
  exact h

theorem blankPagesOf_mem_title {pages : List Page} {q : Page}
    (hq : q ∈ blankPagesOf pages) : q.title = blankTitle := by
  have h := (List.mem_filter.mp hq).2
  simpa only [isBlank, decide_eq_true_eq] using h

theorem content_blank_length (pages : List Page) :
    (contentPagesOf pages).length + (blankPagesOf pages).length = pages.length := by
  have h := (List.filter_append_perm isBlank pages).length_eq
  rw [List.length_append] at h
  unfold contentPagesOf blankPagesOf
  omega

/-! Claim theorems. -/

/-- Claim C1 (status: code_bug).  The claim states that order_pages_hybrid
assigns new_position values forming exactly the set 0..N-1, including when
every page is blank.  The code violates this: on an all-blank document the
early return at ordering.py line 175-176 hands back the blank records without
ever assigning new_position (here: the new_position fields stay none), even
though processor.py line 176 unconditionally reads that field afterwards.
This theorem evaluates the engine at the failing input. -/
theorem C1_allblank_unassigned :
    (order_pages_hybrid simZero pagesAllBlank [(0 : ℕ), 0]).1.map Page.new_position =
        [none, none] ∧
    (order_pages_hybrid simZero pagesAllBlank [(0 : ℕ), 0]).2.ordering_method = "blank_only" ∧
    ¬ (order_pages_hybrid simZero pagesAllBlank [(0 : ℕ), 0]).1.map Page.new_position =
        [some 0, some 1] := by
  refine ⟨by decide, by decide, by decide⟩

/-- Claim C2 (status: confirmed).  Whenever the document has at least one
non-blank page, the list returned by order_pages_hybrid splits into a head of
non-blank pages followed by a tail consisting of exactly the blank pages, so
blank pages occupy the maximal positions of the final order. -/
theorem C2_blank_tail {E : Type} [Inhabited E] (sim : E → E → ℚ)
    (pages : List Page) (embs : List E) (hc : contentPagesOf pages ≠ []) :
    ∃ c b, (order_pages_hybrid sim pages embs).1 = c ++ b ∧
      (∀ p ∈ c, p.title ≠ blankTitle) ∧ (∀ p ∈ b, p.title = blankTitle) ∧
      b.length = (blankPagesOf pages).length ∧ (c ++ b).length = pages.length := by
  set ordered := (if usePageNumbers (contentPagesOf pages)
      then order_pages_by_page_numbers (contentPagesOf pages)
      else structureOrderedOf sim (contentPagesOf pages) embs) with hord
  have hres : (order_pages_hybrid sim pages embs).1 =
      assignPositions (ordered ++ blankPagesOf pages) := by
    rw [hybrid_of_content_nonempty sim pages embs hc]
  have hop : ((ordered).map stripPos).Perm ((contentPagesOf pages).map stripPos) := by
    rw [hord]
    split
    · exact obpn_strip_perm _
    · exact structureOrderedOf_strip_perm _ _ _
  have htp : (ordered.map Page.title).Perm ((contentPagesOf pages).map Page.title) :=
    map_title_of_strip_perm hop
  have hlen : ordered.length = (contentPagesOf pages).length := by
    have := hop.length_eq
    simpa using this
  have hmt : ((order_pages_hybrid sim pages embs).1).map Page.title =
      ordered.map Page.title ++ (blankPagesOf pages).map Page.title := by
    rw [hres, assignPositions_map_title, List.map_append]
  have hreslen : (order_pages_hybrid sim pages embs).1.length =
      ordered.length + (blankPagesOf pages).length := by
    rw [hres, assignPositions_length, List.length_append]
  refine ⟨(order_pages_hybrid sim pages embs).1.take ordered.length,
    (order_pages_hybrid sim pages embs).1.drop ordered.length,
    (List.take_append_drop _ _).symm, ?_, ?_, ?_, ?_⟩
  · intro p hp
    have hmem : p.title ∈ ((order_pages_hybrid sim pages embs).1.map Page.title).take ordered.length := by
      rw [← List.map_take]
      exact List.mem_map_of_mem Page.title hp
    rw [hmt] at hmem
    have hlen2 : (ordered.map Page.title).length = ordered.length := List.length_map _ _
    rw [← hlen2, List.take_left] at hmem
    have hmem2 : p.title ∈ (contentPagesOf pages).map Page.title := htp.mem_iff.mp hmem
    rcases List.mem_map.mp hmem2 with ⟨q, hq, hqt⟩
    rw [← hqt]
    exact contentPagesOf_mem_title hq
  · intro p hp
    have hmem : p.title ∈ ((order_pages_hybrid sim pages embs).1.map Page.title).drop ordered.length := by
      rw [← List.map_drop]
      exact List.mem_map_of_mem Page.title hp
    rw [hmt] at hmem
    have hlen2 : (ordered.map Page.title).length = ordered.length := List.length_map _ _
    rw [← hlen2, List.drop_left] at hmem
    rcases List.mem_map.mp hmem with ⟨q, hq, hqt⟩
    rw [← hqt]
    exact blankPagesOf_mem_title hq
  · rw [List.length_drop, hreslen]
    omega
  · rw [List.take_append_drop, hreslen, hlen, content_blank_length]

/-- Claim C9 (status: confirmed).  optimize_continuity returns the input page
records (compared modulo the new_position field that the pass reassigns, which
is the value-level counterpart of the in-place mutation of the same dict
objects) as a permutation of the input, and returns the pages list exactly
unchanged when the two lists have different lengths. -/
theorem C9_optimize_permutation {E : Type} [Inhabited E] (sim : E → E → ℚ)
    (pages : List Page) (embs : List E) :
    (embs.length ≠ pages.length → optimize_continuity sim pages embs = pages) ∧
    ((optimize_continuity sim pages embs).map stripPos).Perm (pages.map stripPos) := by
  constructor
  · intro h
    unfold optimize_continuity
    rw [if_pos h]
  · exact optimize_continuity_strip_perm sim pages embs

/-- Witness for C9 at a concrete input: a four-page list with an empty
embedding list is returned unchanged, and the permutation property holds. -/
theorem C9_optimize_permutation_witness :
    optimize_continuity simZero pagesStruct ([] : List ℕ) = pagesStruct ∧
    ((optimize_continuity simZero pagesStruct ([] : List ℕ)).map stripPos).Perm
      (pagesStruct.map stripPos) :=
  ⟨(C9_optimize_permutation simZero pagesStruct ([] : List ℕ)).1 (by decide),
   (C9_optimize_permutation simZero pagesStruct ([] : List ℕ)).2⟩

/-- Claim C10 (status: confirmed).  With fewer than three numbered content
pages the sequential score is 1.0 regardless of gaps, so the strategy
selection reduces to the coverage test alone. -/
theorem C10_sequential_default {E : Type} [Inhabited E] (sim : E → E → ℚ)
    (pages : List Page) (embs : List E)
    (hfew : (numberedContentOf (contentPagesOf pages)).length < 3)
    (hc : contentPagesOf pages ≠ []) :
    sequentialScoreOf (contentPagesOf pages) = 1 ∧
    ((order_pages_hybrid sim pages embs).2.ordering_method = "page_numbers_primary" ↔
      coverageOf (contentPagesOf pages) ≥ mkRat 7 10) := by
  have hseq : sequentialScoreOf (contentPagesOf pages) = 1 := by
    unfold sequentialScoreOf
    have hlen : (sortedNumberedOf (contentPagesOf pages)).length =
        (numberedContentOf (contentPagesOf pages)).length := by
      unfold sortedNumberedOf
      exact (pySortBy_perm _ _).length_eq
    rw [if_neg]
    omega
  refine ⟨hseq, ?_⟩
  rw [hybrid_of_content_nonempty sim pages embs hc]
  simp only [hybridMeta, usePageNumbers]
  simp only [hseq]
  have h1 : decide ((1 : ℚ) > mkRat 7 10) = true := by decide
  rw [h1, Bool.and_true]
  cases hcov : decide (coverageOf (contentPagesOf pages) ≥ mkRat 7 10) with
  | true =>
    simp only [if_true]
    simp only [decide_eq_true_eq] at hcov
    exact ⟨fun _ => hcov, fun _ => by trivial⟩
  | false =>
    simp only [Bool.false_eq_true, if_false]
    simp only [decide_eq_false_iff_not] at hcov
    constructor
    · intro h
      exact absurd h (by decide)
    · intro h
      exact absurd h hcov

/-- Witness for C10 at a concrete input: the structure-path fixture has no
numbered pages at all. -/
theorem C10_sequential_default_witness :
    (numberedContentOf (contentPagesOf pagesStruct)).length < 3 ∧
    contentPagesOf pagesStruct ≠ [] ∧
    (sequentialScoreOf (contentPagesOf pagesStruct) = 1 ∧
      ((order_pages_hybrid simZero pagesStruct [(0 : ℕ), 0, 0, 0]).2.ordering_method =
          "page_numbers_primary" ↔
        coverageOf (contentPagesOf pagesStruct) ≥ mkRat 7 10)) :=
  ⟨by decide, by decide,
   C10_sequential_default simZero pagesStruct [(0 : ℕ), 0, 0, 0] (by decide) (by decide)⟩

/-- Witness for C2 at a concrete input: the low-confidence fixture has four
content pages and no blank page. -/
theorem C2_blank_tail_witness :
    contentPagesOf pagesLowConf ≠ [] ∧
    (∃ c b, (order_pages_hybrid simZero pagesLowConf [(0 : ℕ), 0, 0, 0]).1 = c ++ b ∧
      (∀ p ∈ c, p.title ≠ blankTitle) ∧ (∀ p ∈ b, p.title = blankTitle) ∧
      b.length = (blankPagesOf pagesLowConf).length ∧
      (c ++ b).length = pagesLowConf.length) :=
  ⟨by decide, C2_blank_tail simZero pagesLowConf [(0 : ℕ), 0, 0, 0] (by decide)⟩

/-! Lemmas converting sort keys back to the quantities they encode. -/

theorem lexLtQ_singleton (a b : ℚ) : lexLtQ [a] [b] = true ↔ a < b := by
  by_cases h : a < b
  · simp [lexLtQ, h]
  · by_cases h2 : b < a
    · simp [lexLtQ, h, h2]
    · simp [lexLtQ, h, h2]

theorem numberSortKey_lt_iff (p q : Page) :
    lexLtQ (numberSortKey p) (numberSortKey q) = true ↔
      (detectedNum p).getD 0 < (detectedNum q).getD 0 := by
  unfold numberSortKey
  rw [lexLtQ_singleton]
  exact_mod_cast Iff.rfl

theorem numberSortKey_eq_iff (p q : Page) :
    numberSortKey p = numberSortKey q ↔
      (detectedNum p).getD 0 = (detectedNum q).getD 0 := by
  unfold numberSortKey
  constructor
  · intro h
    have h2 := (List.cons.injEq _ _ _ _).mp h |>.1
    exact_mod_cast h2
  · intro h
    rw [h]

/-- Claim C3 (status: corrected), counterexample.  The claim asserts that on
the number-order path every page with a detected page number is sorted by its
number.  The fixture pagesLowConf selects the number-order path (coverage 1.0,
sequential score 1.0), yet its page 0 — detected number 1, confidence exactly
0.5 — is routed to the un-numbered group by the strict confidence > 0.5 test
at ordering.py line 121 and lands last, while the order described by the claim
puts it first. -/
theorem C3_number_order_counterexample :
    usePageNumbers (contentPagesOf pagesLowConf) = true ∧
    (order_pages_hybrid simZero pagesLowConf [(0 : ℕ), 0, 0, 0]).2.ordering_method =
      "page_numbers_primary" ∧
    (order_pages_hybrid simZero pagesLowConf [(0 : ℕ), 0, 0, 0]).1.map Page.page_index =
      [1, 2, 3, 0] ∧
    (claimC3Order pagesLowConf).map Page.page_index = [0, 1, 2, 3] ∧
    ¬ (order_pages_hybrid simZero pagesLowConf [(0 : ℕ), 0, 0, 0]).1.map Page.page_index =
        (claimC3Order pagesLowConf).map Page.page_index :=
  ⟨by decide, by decide, by decide, by decide, by decide⟩

/-- Claim C3 (status: corrected), amended.  order_pages_hybrid selects
number-order exactly when coverage is at least 0.7 and the sequential score
exceeds 0.7; on that path every page with a detected page number AND
confidence above 0.5 is sorted by its number with ties broken by original
index, and all remaining content pages follow, sorted by section numeric value
when present, else by original index, before the blank pages.  The pages are
assumed listed in increasing page_index order, as the pipeline produces
them. -/
theorem C3_number_order_amended {E : Type} [Inhabited E] (sim : E → E → ℚ)
    (pages : List Page) (embs : List E)
    (hidx : pages.Pairwise (fun p q => p.page_index < q.page_index))
    (hc : contentPagesOf pages ≠ []) :
    ((order_pages_hybrid sim pages embs).2.ordering_method = "page_numbers_primary" ↔
      (coverageOf (contentPagesOf pages) ≥ mkRat 7 10 ∧
        sequentialScoreOf (contentPagesOf pages) > mkRat 7 10)) ∧
    ((coverageOf (contentPagesOf pages) ≥ mkRat 7 10 ∧
        sequentialScoreOf (contentPagesOf pages) > mkRat 7 10) →
      ∃ A B : List Page, (order_pages_hybrid sim pages embs).1.map stripPos =
          A.map stripPos ++ B.map stripPos ++ (blankPagesOf pages).map stripPos ∧
        A.Perm ((contentPagesOf pages).filter hasConfidentNumber) ∧
        A.Pairwise (fun p q => (detectedNum p).getD 0 < (detectedNum q).getD 0 ∨
          ((detectedNum p).getD 0 = (detectedNum q).getD 0 ∧ p.page_index ≤ q.page_index)) ∧
        B.Perm ((contentPagesOf pages).filter (fun p => !(hasConfidentNumber p))) ∧
        B.Pairwise (fun p q => lexLtQ (sectionSortKey p) (sectionSortKey q) = true ∨
          (sectionSortKey p = sectionSortKey q ∧ p.page_index ≤ q.page_index))) := by
  have hup : usePageNumbers (contentPagesOf pages) = true ↔
      (coverageOf (contentPagesOf pages) ≥ mkRat 7 10 ∧
        sequentialScoreOf (contentPagesOf pages) > mkRat 7 10) := by
    unfold usePageNumbers
    rw [Bool.and_eq_true, decide_eq_true_eq, decide_eq_true_eq]
  constructor
  · rw [hybrid_of_content_nonempty sim pages embs hc]
    simp only [hybridMeta]
    rw [← hup]
    cases h : usePageNumbers (contentPagesOf pages) with
    | true => simp
    | false =>
      simp only [Bool.false_eq_true, if_false]
      constructor
      · intro hcontra
        exact absurd hcontra (by decide)
      · intro hcontra
        exact absurd hcontra (by decide)
  · intro hsel
    have huse : usePageNumbers (contentPagesOf pages) = true := hup.mpr hsel
    have hcontentpw : (contentPagesOf pages).Pairwise
        (fun p q => p.page_index < q.page_index) := hidx.filter _
    refine ⟨pySortBy numberSortKey ((contentPagesOf pages).filter hasConfidentNumber),
      pySortBy sectionSortKey ((contentPagesOf pages).filter (fun p => !(hasConfidentNumber p))),
      ?_, pySortBy_perm _ _, ?_, pySortBy_perm _ _, ?_⟩
    · rw [hybrid_of_content_nonempty sim pages embs hc]
      show (assignPositions _).map stripPos = _
      rw [if_pos huse, assignPositions_map_strip, List.map_append]
      unfold order_pages_by_page_numbers
      rw [assignPositions_map_strip, List.map_append]
    · refine (pySortBy_pairwise_idx numberSortKey Page.page_index _
        (hcontentpw.filter _)).imp ?_
      intro p q h
      rcases h with h | ⟨he, hi⟩
      · exact Or.inl ((numberSortKey_lt_iff p q).mp h)
      · exact Or.inr ⟨(numberSortKey_eq_iff p q).mp he, hi⟩
    · exact pySortBy_pairwise_idx sectionSortKey Page.page_index _ (hcontentpw.filter _)

/-- Witness for the amended C3 at a concrete input: pagesLowConf is listed in
increasing index order, has content pages and satisfies the selection
condition. -/
theorem C3_number_order_amended_witness :
    pagesLowConf.Pairwise (fun p q => p.page_index < q.page_index) ∧
    contentPagesOf pagesLowConf ≠ [] ∧
    (((order_pages_hybrid simZero pagesLowConf [(0 : ℕ), 0, 0, 0]).2.ordering_method =
        "page_numbers_primary" ↔
      (coverageOf (contentPagesOf pagesLowConf) ≥ mkRat 7 10 ∧
        sequentialScoreOf (contentPagesOf pagesLowConf) > mkRat 7 10)) ∧
    ((coverageOf (contentPagesOf pagesLowConf) ≥ mkRat 7 10 ∧
        sequentialScoreOf (contentPagesOf pagesLowConf) > mkRat 7 10) →
      ∃ A B : List Page, (order_pages_hybrid simZero pagesLowConf [(0 : ℕ), 0, 0, 0]).1.map stripPos =
          A.map stripPos ++ B.map stripPos ++ (blankPagesOf pagesLowConf).map stripPos ∧
        A.Perm ((contentPagesOf pagesLowConf).filter hasConfidentNumber) ∧
        A.Pairwise (fun p q => (detectedNum p).getD 0 < (detectedNum q).getD 0 ∨
          ((detectedNum p).getD 0 = (detectedNum q).getD 0 ∧ p.page_index ≤ q.page_index)) ∧
        B.Perm ((contentPagesOf pagesLowConf).filter (fun p => !(hasConfidentNumber p))) ∧
        B.Pairwise (fun p q => lexLtQ (sectionSortKey p) (sectionSortKey q) = true ∨
          (sectionSortKey p = sectionSortKey q ∧ p.page_index ≤ q.page_index)))) :=
  ⟨by decide, by decide,
   C3_number_order_amended simZero pagesLowConf [(0 : ℕ), 0, 0, 0] (by decide) (by decide)⟩

/-- Claim C4 (status: confirmed).  When the parsed adapter response omits
correct_order or supplies a list that is not a permutation of exactly the
input page indices (wrong length, duplicate or missing index), the adapter
returns no page list together with metadata carrying an error field (the
raise/except pairs of the source are total error branches here, so nothing
propagates to the caller), and the processor dispatch deterministically
produces the local hybrid output. -/
theorem C4_adapter_fallback {E : Type} [Inhabited E] (sim : E → E → ℚ)
    (pages : List Page) (embs : List E) (key : String) (r : GeminiResponse)
    (hinv : r.correct_order = none ∨
      ∃ o, r.correct_order = some o ∧
        ¬(o.length = pages.length ∧ sameElements o (List.range pages.length) = true)) :
    (order_pages_with_gemini pages (some r)).1 = none ∧
    (order_pages_with_gemini pages (some r)).2.error.isSome = true ∧
    processStep7 sim true true (some key) (some r) pages embs =
      ((order_pages_hybrid sim pages embs).1, Sum.inl (order_pages_hybrid sim pages embs).2) := by
  have hmain : (order_pages_with_gemini pages (some r)).1 = none ∧
      (order_pages_with_gemini pages (some r)).2.error.isSome = true := by
    unfold order_pages_with_gemini
    simp only []
    rcases hinv with h | ⟨o, ho, hno⟩
    · rw [h]
      exact ⟨rfl, rfl⟩
    · rw [ho]
      simp only []
      by_cases hlen : o.length = pages.length
      · have hse : sameElements o (List.range pages.length) = false := by
          cases hs : sameElements o (List.range pages.length)
          · rfl
          · exact absurd ⟨hlen, hs⟩ hno
        rw [if_neg (by omega), if_pos (by rw [hse]; rfl)]
        exact ⟨rfl, rfl⟩
      · rw [if_pos hlen]
        exact ⟨rfl, rfl⟩
  refine ⟨hmain.1, hmain.2, ?_⟩
  unfold processStep7
  rw [if_pos (by rfl)]
  have h1 := hmain.1
  rcases hg : order_pages_with_gemini pages (some r) with ⟨o1, m1⟩
  rw [hg] at h1
  simp only at h1
  subst h1
  rfl

/-- Witness for C4 at a concrete input: a two-page document and a response
whose correct_order repeats index 0. -/
theorem C4_adapter_fallback_witness :
    (respDupIdx.correct_order = none ∨
      ∃ o, respDupIdx.correct_order = some o ∧
        ¬(o.length = pagesTwo.length ∧
          sameElements o (List.range pagesTwo.length) = true)) ∧
    ((order_pages_with_gemini pagesTwo (some respDupIdx)).1 = none ∧
     (order_pages_with_gemini pagesTwo (some respDupIdx)).2.error.isSome = true ∧
     processStep7 simZero true true (some "k") (some respDupIdx) pagesTwo [(0 : ℕ), 0] =
       ((order_pages_hybrid simZero pagesTwo [(0 : ℕ), 0]).1,
        Sum.inl (order_pages_hybrid simZero pagesTwo [(0 : ℕ), 0]).2)) :=
  ⟨Or.inr ⟨[0, 0], rfl, by decide⟩,
   C4_adapter_fallback simZero pagesTwo [(0 : ℕ), 0] "k" respDupIdx
     (Or.inr ⟨[0, 0], rfl, by decide⟩)⟩

/-! Lemmas relating the continuity-pass fold to its recursive description. -/

theorem contStep_eq {E : Type} [Inhabited E] (sim : E → E → ℚ) (scores : List ℚ)
    (st : List Page × List E) (i : ℕ) :
    contStep sim scores st i =
      if scores.getD i 0 < mkRat 3 10 ∧ i + 2 < st.1.length ∧ i + 3 < st.1.length ∧
          sim (st.2.getD i default) (st.2.getD (i + 2) default) >
            scores.getD i 0 + mkRat 2 10 then
        (swapPair st.1 (i + 1), swapPair st.2 (i + 1))
      else st := by
  unfold contStep
  split_ifs <;> first | rfl | tauto

theorem specPassAux_eq_foldl {E : Type} [Inhabited E] (sim : E → E → ℚ) (scores : List ℚ) :
    ∀ (fuel i : ℕ) (st : List Page × List E),
      specPassAux sim scores fuel i st = (List.range' i fuel).foldl (contStep sim scores) st := by
  intro fuel
  induction fuel with
  | zero => intro i st; rfl
  | succ n ih =>
    intro i st
    rw [List.range'_succ, List.foldl_cons]
    show specPassAux sim scores n (i + 1) _ = _
    rw [← contStep_eq]
    exact ih (i + 1) (contStep sim scores st i)

/-- Claim C8 (status: corrected), counterexample.  The claim describes the
pass as swapping the next two pages for every adjacent pair below similarity
0.3 whenever the swap gains more than 0.2, but the code additionally requires
a page beyond the swapped pair (i+3 < len at ordering.py line 301).  On the
structure-path fixture the pair at index 1 is below threshold and the swap of
pages 2 and 3 would gain 0.8, yet the code performs no swap, while the pass as
the claim describes it swaps them. -/
theorem C8_continuity_counterexample :
    usePageNumbers (contentPagesOf pagesStruct) = false ∧
    (contentPagesOf pagesStruct).length > 3 ∧
    (order_pages_hybrid simStruct pagesStruct [(0 : ℕ), 1, 2, 3]).1.map Page.page_index =
      [0, 1, 2, 3] ∧
    (claimC8Pass simStruct (structSorted (contentPagesOf pagesStruct))
        (structEmbsOf (contentPagesOf pagesStruct) [(0 : ℕ), 1, 2, 3])).map Page.page_index =
      [0, 1, 3, 2] ∧
    ¬ ((order_pages_hybrid simStruct pagesStruct [(0 : ℕ), 1, 2, 3]).1.map Page.page_index =
        (claimC8Pass simStruct (structSorted (contentPagesOf pagesStruct))
          (structEmbsOf (contentPagesOf pagesStruct) [(0 : ℕ), 1, 2, 3])).map Page.page_index) :=
  ⟨by decide, by decide, by decide, by decide, by decide⟩

/-- Claim C8 (status: corrected), amended.  On the structure-order path the
continuity refinement runs exactly when more than three content pages exist;
it is the single left-to-right pass specPassAux over the pair similarities
precomputed from the initial arrangement, which at step i swaps the next two
pages exactly when the precomputed similarity of pair i is below 0.3, a page
beyond the swapped pair exists (i+3 < n), and the similarity of the current
embeddings at positions i and i+2 exceeds the precomputed value by more than
0.2.  With at most three content pages the sorted order is returned without
refinement. -/
theorem C8_continuity_amended {E : Type} [Inhabited E] (sim : E → E → ℚ)
    (pages : List Page) (embs : List E) (hc : contentPagesOf pages ≠ [])
    (hsel : ¬(coverageOf (contentPagesOf pages) ≥ mkRat 7 10 ∧
      sequentialScoreOf (contentPagesOf pages) > mkRat 7 10)) :
    ((contentPagesOf pages).length > 3 →
      (order_pages_hybrid sim pages embs).1 =
        assignPositions
          ((specPassAux sim (initScoresOf sim (structEmbsOf (contentPagesOf pages) embs))
              (initScoresOf sim (structEmbsOf (contentPagesOf pages) embs)).length 0
              (structSorted (contentPagesOf pages),
               structEmbsOf (contentPagesOf pages) embs)).1
            ++ blankPagesOf pages)) ∧
    (¬ (contentPagesOf pages).length > 3 →
      (order_pages_hybrid sim pages embs).1 =
        assignPositions (structSorted (contentPagesOf pages) ++ blankPagesOf pages)) := by
  have huse : usePageNumbers (contentPagesOf pages) = false := by
    cases h : usePageNumbers (contentPagesOf pages)
    · rfl
    · exfalso
      apply hsel
      have := h
      unfold usePageNumbers at this
      rw [Bool.and_eq_true, decide_eq_true_eq, decide_eq_true_eq] at this
      exact this
  have hbranch : (order_pages_hybrid sim pages embs).1 =
      assignPositions (structureOrderedOf sim (contentPagesOf pages) embs ++
        blankPagesOf pages) := by
    rw [hybrid_of_content_nonempty sim pages embs hc, if_neg (by rw [huse]; exact fun h => nomatch h)]
  constructor
  · intro h3
    rw [hbranch]
    unfold structureOrderedOf
    rw [if_pos h3]
    unfold optimize_continuity
    have hlen : (structEmbsOf (contentPagesOf pages) embs).length =
        (structSorted (contentPagesOf pages)).length := by
      unfold structEmbsOf
      rw [List.length_map]
    rw [if_neg (by rw [hlen]; exact fun h => h rfl)]
    apply assignPositions_eq_of_strip
    rw [List.map_append, List.map_append, assignPositions_map_strip]
    rw [specPassAux_eq_foldl, ← List.range_eq_range']
  · intro h3
    rw [hbranch]
    unfold structureOrderedOf
    rw [if_neg h3]

/-- Witness for the amended C8 at a concrete input: the structure-path fixture
has four content pages and fails the selection condition. -/
theorem C8_continuity_amended_witness :
    contentPagesOf pagesStruct ≠ [] ∧
    ¬(coverageOf (contentPagesOf pagesStruct) ≥ mkRat 7 10 ∧
      sequentialScoreOf (contentPagesOf pagesStruct) > mkRat 7 10) ∧
    (contentPagesOf pagesStruct).length > 3 ∧
    (order_pages_hybrid simStruct pagesStruct [(0 : ℕ), 1, 2, 3]).1 =
      assignPositions
        ((specPassAux simStruct
            (initScoresOf simStruct (structEmbsOf (contentPagesOf pagesStruct) [(0 : ℕ), 1, 2, 3]))
            (initScoresOf simStruct
              (structEmbsOf (contentPagesOf pagesStruct) [(0 : ℕ), 1, 2, 3])).length 0
            (structSorted (contentPagesOf pagesStruct),
             structEmbsOf (contentPagesOf pagesStruct) [(0 : ℕ), 1, 2, 3])).1
          ++ blankPagesOf pagesStruct) :=
  ⟨by decide, by decide, by decide,
   (C8_continuity_amended simStruct pagesStruct [(0 : ℕ), 1, 2, 3] (by decide) (by decide)).1
     (by decide)⟩

/-! Lemmas for missing-page detection. -/

theorem zip_tail_mem_iff {l : List ℕ} {cn : ℕ × ℕ} :
    cn ∈ l.zip l.tail ↔
      ∃ i, i + 1 < l.length ∧ l.getD i 0 = cn.1 ∧ l.getD (i + 1) 0 = cn.2 := by
  constructor
  · intro h
    rcases List.mem_iff_getElem.mp h with ⟨i, hi, hcn⟩
    have hzl : (l.zip l.tail).length = min l.length l.tail.length := List.length_zip _ _
    have htl : l.tail.length = l.length - 1 := List.length_tail _
    have hi1 : i < l.length := by omega
    have hi2 : i < l.tail.length := by omega
    have hi3 : i + 1 < l.length := by omega
    refine ⟨i, hi3, ?_, ?_⟩
    · rw [List.getD_eq_getElem l 0 hi1]
      rw [List.getElem_zip] at hcn
      exact congrArg Prod.fst hcn
    · rw [List.getD_eq_getElem l 0 hi3]
      rw [List.getElem_zip] at hcn
      have h2 := congrArg Prod.snd hcn
      simp only at h2
      rw [List.getElem_tail] at h2
      exact h2
  · rintro ⟨i, hi, h1, h2⟩
    have htl : l.tail.length = l.length - 1 := List.length_tail _
    have hiz : i < (l.zip l.tail).length := by
      rw [List.length_zip]
      omega
    apply List.mem_iff_getElem.mpr
    refine ⟨i, hiz, ?_⟩
    rw [List.getElem_zip]
    have hi1 : i < l.length := by omega
    have hi2 : i < l.tail.length := by omega
    rw [List.getD_eq_getElem l 0 hi1] at h1
    rw [List.getD_eq_getElem l 0 hi] at h2
    rw [List.getElem_tail]
    rw [h1, h2]

/-- Claim C6 (status: confirmed).  detect_missing_pages returns the empty list
for fewer than two numbered pages; on the two worked examples it reports [4]
and [3,5,6]; and in general an integer is reported missing exactly when it
lies strictly between two consecutive detected numbers of the sorted numbered
list (every gap larger than one contributes all integers strictly inside
it). -/
theorem C6_missing_pages :
    (∀ l : List (ℕ × ℕ), l.length < 2 → detect_missing_pages l = []) ∧
    detect_missing_pages [(0, 1), (1, 2), (2, 3), (3, 5), (4, 6)] = [4] ∧
    detect_missing_pages [(0, 1), (1, 2), (2, 4), (3, 7)] = [3, 5, 6] ∧
    (∀ (l : List (ℕ × ℕ)) (m : ℕ),
      m ∈ detect_missing_pages l ↔
        2 ≤ l.length ∧ ∃ i, i + 1 < ((pySortBy pairNumKey l).map Prod.snd).length ∧
          ((pySortBy pairNumKey l).map Prod.snd).getD i 0 < m ∧
          m < ((pySortBy pairNumKey l).map Prod.snd).getD (i + 1) 0) := by
  refine ⟨?_, by decide, by decide, ?_⟩
  · intro l hl
    unfold detect_missing_pages
    rw [if_pos hl]
  · intro l m
    unfold detect_missing_pages
    by_cases hlen : l.length < 2
    · rw [if_pos hlen]
      simp only [List.not_mem_nil, false_iff, not_and]
      intro h
      omega
    · rw [if_neg hlen]
      simp only [List.mem_flatten, List.mem_map]
      constructor
      · rintro ⟨sub, ⟨cn, hcn, rfl⟩, hm⟩
        refine ⟨by omega, ?_⟩
        rcases zip_tail_mem_iff.mp hcn with ⟨i, hi, h1, h2⟩
        by_cases hgap : cn.2 - cn.1 > 1
        · rw [if_pos hgap] at hm
          rw [List.mem_range'_1] at hm
          exact ⟨i, hi, by omega, by omega⟩
        · rw [if_neg hgap] at hm
          cases hm
      · rintro ⟨h2len, i, hi, hlt1, hlt2⟩
        set nums := (pySortBy pairNumKey l).map Prod.snd with hnums
        refine ⟨_, ⟨(nums.getD i 0, nums.getD (i + 1) 0),
          zip_tail_mem_iff.mpr ⟨i, hi, rfl, rfl⟩, rfl⟩, ?_⟩
        have hgap : nums.getD (i + 1) 0 - nums.getD i 0 > 1 := by omega
        rw [if_pos hgap, List.mem_range'_1]
        omega

/-- Witness for C6 at a concrete input: a single numbered page yields no
missing pages, through the first clause of the theorem. -/
theorem C6_missing_pages_witness :
    ([((0 : ℕ), (5 : ℕ))] : List (ℕ × ℕ)).length < 2 ∧
    detect_missing_pages [((0 : ℕ), (5 : ℕ))] = [] :=
  ⟨by decide, C6_missing_pages.1 [((0 : ℕ), (5 : ℕ))] (by decide)⟩

/-! Lemmas for section-number comparison and encoding. -/

theorem encodeFold (r : List ℕ) : ∀ (j : ℕ) (acc : ℚ),
    (r.enumFrom j).foldl (fun acc ip => acc + mkRat (ip.2 : ℤ) (1000 ^ (ip.1 + 1))) acc
      = acc + encodeR r / (1000 : ℚ) ^ (j + 1) := by
  induction r with
  | nil =>
    intro j acc
    simp [encodeR]
  | cons b r ih =>
    intro j acc
    rw [List.enumFrom_cons, List.foldl_cons, ih (j + 1)]
    show acc + mkRat (b : ℤ) (1000 ^ (j + 1)) + encodeR r / (1000 : ℚ) ^ (j + 2) =
      acc + ((b : ℚ) + encodeR r / 1000) / (1000 : ℚ) ^ (j + 1)
    rw [Rat.mkRat_eq_div]
    have h1 : ((1000 : ℚ)) ^ (j + 1) ≠ 0 := by positivity
    have h2 : ((1000 : ℚ)) ^ (j + 2) ≠ 0 := by positivity
    have h3 : (((1000 ^ (j + 1) : ℕ) : ℚ)) = (1000 : ℚ) ^ (j + 1) := by push_cast; ring
    rw [h3]
    field_simp
    ring

theorem encodeParts_eq_encodeR (parts : List ℕ) : encodeParts parts = encodeR parts := by
  cases parts with
  | nil => rfl
  | cons p0 rest =>
    show (rest.enum).foldl _ ((p0 : ℕ) : ℚ) = _
    have henum : rest.enum = rest.enumFrom 0 := rfl
    rw [henum, encodeFold rest 0 ((p0 : ℕ) : ℚ)]
    show ((p0 : ℕ) : ℚ) + encodeR rest / (1000 : ℚ) ^ 1 = (p0 : ℚ) + encodeR rest / 1000
    norm_num

theorem encodeR_nonneg (l : List ℕ) : 0 ≤ encodeR l := by
  induction l with
  | nil => exact le_refl 0
  | cons a r ih =>
    show (0 : ℚ) ≤ (a : ℚ) + encodeR r / 1000
    have h1 : (0 : ℚ) ≤ (a : ℚ) := Nat.cast_nonneg a
    have h2 : (0 : ℚ) ≤ encodeR r / 1000 := div_nonneg ih (by norm_num)
    linarith

theorem encodeR_lt_1000 : ∀ l : List ℕ, (∀ x ∈ l, x ≤ 999) → encodeR l < 1000 := by
  intro l
  induction l with
  | nil => intro _; norm_num [encodeR]
  | cons a r ih =>
    intro h
    show (a : ℚ) + encodeR r / 1000 < 1000
    have ha : (a : ℚ) ≤ 999 := by
      exact_mod_cast h a (List.mem_cons_self a r)
    have hr : encodeR r < 1000 := ih (fun x hx => h x (List.mem_cons_of_mem _ hx))
    have h2 : encodeR r / 1000 < 1 := by
      rw [div_lt_one (by norm_num : (0 : ℚ) < 1000)]
      exact hr
    linarith

theorem encodeR_ge_one : ∀ l : List ℕ, l ≠ [] → (∀ x ∈ l, 1 ≤ x) → 1 ≤ encodeR l := by
  intro l hne h
  cases l with
  | nil => exact absurd rfl hne
  | cons a r =>
    show (1 : ℚ) ≤ (a : ℚ) + encodeR r / 1000
    have ha : (1 : ℚ) ≤ (a : ℚ) := by
      exact_mod_cast h a (List.mem_cons_self a r)
    have h2 : (0 : ℚ) ≤ encodeR r / 1000 := div_nonneg (encodeR_nonneg r) (by norm_num)
    linarith

theorem encodeR_cons_lt_cons {a b : ℕ} {p q : List ℕ} (hp : encodeR p < 1000)
    (hq : 0 ≤ encodeR q) (hab : a < b) : encodeR (a :: p) < encodeR (b :: q) := by
  show (a : ℚ) + encodeR p / 1000 < (b : ℚ) + encodeR q / 1000
  have h1 : encodeR p / 1000 < 1 := by
    rw [div_lt_one (by norm_num : (0 : ℚ) < 1000)]
    exact hp
  have h2 : (0 : ℚ) ≤ encodeR q / 1000 := div_nonneg hq (by norm_num)
  have hab' : (a : ℚ) + 1 ≤ (b : ℚ) := by exact_mod_cast hab
  linarith

theorem encodeR_cons_lt_cons_iff (a : ℕ) (p q : List ℕ) :
    encodeR (a :: p) < encodeR (a :: q) ↔ encodeR p < encodeR q := by
  show (a : ℚ) + encodeR p / 1000 < (a : ℚ) + encodeR q / 1000 ↔ _
  rw [add_lt_add_iff_left, div_lt_div_iff_of_pos_right (by norm_num : (0 : ℚ) < 1000)]

theorem subOK_tail {a : ℕ} {l : List ℕ} (h : subOK (a :: l)) : subOK l :=
  fun x hx => h x (List.mem_cons_of_mem _ hx)

theorem cmpParts_agree : ∀ p q : List ℕ, subOK p → subOK q →
    (cmpParts p q = -1 ↔ encodeR p < encodeR q) := by
  intro p
  induction p with
  | nil =>
    intro q hp hq
    cases q with
    | nil =>
      constructor
      · intro h
        simp [cmpParts] at h
      · intro h
        exact absurd h (lt_irrefl _)
    | cons c r =>
      constructor
      · intro _
        have h1 : (1 : ℚ) ≤ encodeR (c :: r) :=
          encodeR_ge_one _ (by simp) (fun x hx => (hq x hx).1)
        show encodeR [] < _
        show (0 : ℚ) < _
        linarith
      · intro _
        rfl
  | cons a p ih =>
    intro q hp hq
    have hpa : subOK p := subOK_tail hp
    cases q with
    | nil =>
      constructor
      · intro h
        simp [cmpParts] at h
      · intro h
        exfalso
        have h1 : (1 : ℚ) ≤ encodeR (a :: p) :=
          encodeR_ge_one _ (by simp) (fun x hx => (hp x hx).1)
        have h0 : encodeR ([] : List ℕ) = 0 := rfl
        rw [h0] at h
        linarith
    | cons b r =>
      have hra : subOK r := subOK_tail hq
      have hplt : encodeR p < 1000 := encodeR_lt_1000 _ (fun x hx => (hpa x hx).2)
      have hrlt : encodeR r < 1000 := encodeR_lt_1000 _ (fun x hx => (hra x hx).2)
      rcases lt_trichotomy a b with hab | hab | hab
      · simp only [cmpParts, if_pos hab]
        constructor
        · intro _
          exact encodeR_cons_lt_cons hplt (encodeR_nonneg r) hab
        · intro _
          trivial
      · subst hab
        simp only [cmpParts, lt_irrefl, if_false]
        rw [encodeR_cons_lt_cons_iff]
        exact ih r hpa hra
      · have h1 : ¬ a < b := not_lt.mpr (le_of_lt hab)
        simp only [cmpParts, if_neg h1, if_pos hab]
        constructor
        · intro h
          norm_num at h
        · intro h
          exfalso
          have := encodeR_cons_lt_cons hrlt (encodeR_nonneg p) hab
          linarith

theorem cmpParts_agree_heads (a b : ℕ) (p q : List ℕ) (hp : subOK p) (hq : subOK q) :
    cmpParts (a :: p) (b :: q) = -1 ↔ encodeR (a :: p) < encodeR (b :: q) := by
  have hplt : encodeR p < 1000 := encodeR_lt_1000 _ (fun x hx => (hp x hx).2)
  have hqlt : encodeR q < 1000 := encodeR_lt_1000 _ (fun x hx => (hq x hx).2)
  rcases lt_trichotomy a b with hab | hab | hab
  · simp only [cmpParts, if_pos hab]
    constructor
    · intro _
      exact encodeR_cons_lt_cons hplt (encodeR_nonneg q) hab
    · intro _
      trivial
  · subst hab
    simp only [cmpParts, lt_irrefl, if_false]
    rw [encodeR_cons_lt_cons_iff]
    exact cmpParts_agree p q hp hq
  · have h1 : ¬ a < b := not_lt.mpr (le_of_lt hab)
    simp only [cmpParts, if_neg h1, if_pos hab]
    constructor
    · intro h
      norm_num at h
    · intro h
      exfalso
      have := encodeR_cons_lt_cons hqlt (encodeR_nonneg p) hab
      linarith

theorem cmpParts_self : ∀ p : List ℕ, cmpParts p p = 0 := by
  intro p
  induction p with
  | nil => rfl
  | cons a r ih => simp [cmpParts, ih]

theorem cmpParts_eq_zero_iff : ∀ p q : List ℕ, cmpParts p q = 0 ↔ p = q := by
  intro p
  induction p with
  | nil =>
    intro q
    cases q with
    | nil => simp [cmpParts]
    | cons b r => simp [cmpParts]
  | cons a p ih =>
    intro q
    cases q with
    | nil => simp [cmpParts]
    | cons b r =>
      rcases lt_trichotomy a b with hab | hab | hab
      · simp only [cmpParts, if_pos hab]
        constructor
        · intro h
          norm_num at h
        · intro h
          injection h with h1 h2
          omega
      · subst hab
        simp only [cmpParts, lt_irrefl, if_false]
        rw [ih r]
        constructor
        · intro h
          rw [h]
        · intro h
          injection h
      · have h1 : ¬ a < b := not_lt.mpr (le_of_lt hab)
        simp only [cmpParts, if_neg h1, if_pos hab]
        constructor
        · intro h
          norm_num at h
        · intro h
          injection h with h1 h2
          omega

theorem cmpParts_neg_iff : ∀ p q : List ℕ, cmpParts p q = -1 ↔ cmpParts q p = 1 := by
  intro p
  induction p with
  | nil =>
    intro q
    cases q with
    | nil => simp [cmpParts]
    | cons b r => simp [cmpParts]
  | cons a p ih =>
    intro q
    cases q with
    | nil => simp [cmpParts]
    | cons b r =>
      rcases lt_trichotomy a b with hab | hab | hab
      · have h1 : ¬ b < a := not_lt.mpr (le_of_lt hab)
        simp [cmpParts, hab, h1]
      · subst hab
        simp only [cmpParts, lt_irrefl, if_false]
        exact ih r
      · have h1 : ¬ a < b := not_lt.mpr (le_of_lt hab)
        simp [cmpParts, hab, h1]

theorem cmpParts_trans : ∀ p q r : List ℕ,
    cmpParts p q = -1 → cmpParts q r = -1 → cmpParts p r = -1 := by
  intro p
  induction p with
  | nil =>
    intro q r h1 h2
    cases r with
    | nil =>
      cases q with
      | nil => simp [cmpParts] at h1
      | cons b s => simp [cmpParts] at h2
    | cons c t => rfl
  | cons a p ih =>
    intro q r h1 h2
    cases q with
    | nil => simp [cmpParts] at h1
    | cons b s =>
      cases r with
      | nil => simp [cmpParts] at h2
      | cons c t =>
        rcases lt_trichotomy a b with hab | hab | hab
        · rcases lt_trichotomy b c with hbc | hbc | hbc
          · simp only [cmpParts, if_pos (hab.trans hbc)]
          · subst hbc
            simp only [cmpParts, if_pos hab]
          · have hx : ¬ b < c := not_lt.mpr (le_of_lt hbc)
            simp only [cmpParts, if_neg hx, if_pos hbc] at h2
            norm_num at h2
        · subst hab
          simp only [cmpParts, lt_irrefl, if_false] at h1
          rcases lt_trichotomy a c with hac | hac | hac
          · simp only [cmpParts, if_pos hac]
          · subst hac
            simp only [cmpParts, lt_irrefl, if_false] at h2 ⊢
            exact ih s t h1 h2
          · have hx : ¬ a < c := not_lt.mpr (le_of_lt hac)
            simp only [cmpParts, if_neg hx, if_pos hac] at h2
            norm_num at h2
        · have hx : ¬ a < b := not_lt.mpr (le_of_lt hab)
          simp only [cmpParts, if_neg hx, if_pos hab] at h1
          norm_num at h1

/-- Claim C5 (status: corrected), counterexample.  The claim states that the
numeric order of the section_numeric_value encodings agrees with
compare_section_numbers for every pair of parsed numeric-hierarchy section
numbers.  The section strings of the titles "3 Alpha" and "3.0 Beta" parse to
[3] and [3, 0]: compare_section_numbers orders them strictly, while their
encodings are both exactly 3, so the numeric order does not agree. -/
theorem C5_section_order_counterexample :
    compare_section_numbers "3" "3.0" = -1 ∧
    sectionParts "3" = [3] ∧
    sectionParts "3.0" = [3, 0] ∧
    encodeParts (sectionParts "3") = encodeParts (sectionParts "3.0") ∧
    ¬ encodeParts (sectionParts "3") < encodeParts (sectionParts "3.0") :=
  ⟨by decide, by decide, by decide, by decide, by decide⟩

/-- Claim C5 (status: corrected), amended.  cmpParts — the comparison
compare_section_numbers performs on the parsed parts — is a strict total order
on parsed section numbers, and the string-level comparison satisfies the chain
3 before 3.1 before 3.2 before 3.2.1 before 4; and for parsed numeric
hierarchies whose sub-level parts all lie between 1 and 999 (in particular
excluding zero parts as in "3.0" and parts of four or more digits), the
numeric order of the encodeParts encodings agrees with the comparison. -/
theorem C5_section_order_amended :
    (∀ p : List ℕ, cmpParts p p = 0) ∧
    (∀ p q : List ℕ, cmpParts p q = 0 ↔ p = q) ∧
    (∀ p q : List ℕ, cmpParts p q = -1 ↔ cmpParts q p = 1) ∧
    (∀ p q r : List ℕ, cmpParts p q = -1 → cmpParts q r = -1 → cmpParts p r = -1) ∧
    (compare_section_numbers "3" "3.1" = -1 ∧ compare_section_numbers "3.1" "3.2" = -1 ∧
      compare_section_numbers "3.2" "3.2.1" = -1 ∧ compare_section_numbers "3.2.1" "4" = -1) ∧
    (∀ (a b : ℕ) (p q : List ℕ), subOK p → subOK q →
      (cmpParts (a :: p) (b :: q) = -1 ↔ encodeParts (a :: p) < encodeParts (b :: q))) := by
  refine ⟨cmpParts_self, cmpParts_eq_zero_iff, cmpParts_neg_iff, cmpParts_trans,
    ⟨by decide, by decide, by decide, by decide⟩, ?_⟩
  intro a b p q hp hq
  rw [encodeParts_eq_encodeR, encodeParts_eq_encodeR]
  exact cmpParts_agree_heads a b p q hp hq

/-- Witness for the amended C5 at concrete inputs: the parts [3, 2] and
[3, 10] satisfy the boundedness condition, and the agreement instance
follows. -/
theorem C5_section_order_amended_witness :
    subOK [2] ∧ subOK [10] ∧
    (cmpParts [3, 2] [3, 10] = -1 ↔ encodeParts [3, 2] < encodeParts [3, 10]) :=
  ⟨by decide, by decide,
   C5_section_order_amended.2.2.2.2.2 3 3 [2] [10] (by decide) (by decide)⟩

/-! Lemmas for duplicate detection. -/

theorem firstOccurrencesAux_mem : ∀ (l seen : List (List Char)) (x : List Char),
    x ∈ firstOccurrencesAux seen l ↔ (x ∈ l ∧ x ∉ seen) := by
  intro l
  induction l with
  | nil =>
    intro seen x
    simp [firstOccurrencesAux]
  | cons a r ih =>
    intro seen x
    unfold firstOccurrencesAux
    by_cases ha : a ∈ seen
    · rw [if_pos ha, ih]
      constructor
      · rintro ⟨hx, hns⟩
        exact ⟨List.mem_cons_of_mem _ hx, hns⟩
      · rintro ⟨hx, hns⟩
        rcases List.mem_cons.mp hx with rfl | hx
        · exact absurd ha hns
        · exact ⟨hx, hns⟩
    · rw [if_neg ha]
      by_cases hxa : x = a
      · subst hxa
        simp [ha]
      · simp [List.mem_cons, ih, hxa, not_or]

theorem firstOccurrences_mem (l : List (List Char)) (x : List Char) :
    x ∈ firstOccurrences l ↔ x ∈ l := by
  unfold firstOccurrences
  rw [firstOccurrencesAux_mem]
  simp

theorem firstOccurrencesAux_nodup : ∀ (l seen : List (List Char)),
    (firstOccurrencesAux seen l).Nodup := by
  intro l
  induction l with
  | nil =>
    intro seen
    simp [firstOccurrencesAux]
  | cons a r ih =>
    intro seen
    unfold firstOccurrencesAux
    by_cases ha : a ∈ seen
    · rw [if_pos ha]
      exact ih seen
    · rw [if_neg ha]
      refine List.nodup_cons.mpr ⟨?_, ih (a :: seen)⟩
      intro hmem
      have h := (firstOccurrencesAux_mem r (a :: seen) a).mp hmem
      exact h.2 (List.mem_cons_self a seen)

theorem firstOccurrences_nodup (l : List (List Char)) : (firstOccurrences l).Nodup :=
  firstOccurrencesAux_nodup l []

theorem hashGroup_mem (pages : List Page) (h : List Char) (i : ℕ) :
    i ∈ hashGroup pages h ↔ i < pages.length ∧ (pageHashes pages).getD i [] = h := by
  unfold hashGroup
  rw [List.mem_filter, List.mem_range]
  simp

theorem hashGroup_pairwise (pages : List Page) (h : List Char) :
    (hashGroup pages h).Pairwise (· < ·) :=
  (List.pairwise_lt_range _).filter _

theorem find_exact_mem {pages : List Page} {g : List ℕ} :
    g ∈ find_exact_duplicates pages ↔
      (∃ h, h ∈ firstOccurrences (pageHashes pages) ∧ g = hashGroup pages h) ∧
        1 < g.length := by
  unfold find_exact_duplicates
  rw [List.mem_filter]
  simp only [List.mem_map, decide_eq_true_eq, gt_iff_lt]
  constructor
  · rintro ⟨⟨h, hk, hgh⟩, hlen⟩
    exact ⟨⟨h, hk, hgh.symm⟩, hlen⟩
  · rintro ⟨⟨h, hk, hgh⟩, hlen⟩
    exact ⟨⟨h, hk, hgh.symm⟩, hlen⟩

theorem find_exact_disjoint (pages : List Page) :
    (find_exact_duplicates pages).Pairwise (fun g1 g2 => ∀ x, x ∈ g1 → x ∈ g2 → False) := by
  unfold find_exact_duplicates
  apply List.Pairwise.filter
  rw [List.pairwise_map]
  refine (firstOccurrences_nodup _).imp ?_
  intro h1 h2 hne x hx1 hx2
  rw [hashGroup_mem] at hx1 hx2
  exact hne (hx1.2.symm.trans hx2.2)

theorem find_exact_pairwise {pages : List Page} {g : List ℕ}
    (hg : g ∈ find_exact_duplicates pages) : g.Pairwise (· < ·) := by
  rcases find_exact_mem.mp hg with ⟨⟨h, _, hgh⟩, _⟩
  rw [hgh]
  exact hashGroup_pairwise pages h

theorem getD_modify (f : Page → Page) (j : ℕ) (ps : List Page) (i : ℕ) (hi : i < ps.length) :
    (ps.modify f j).getD i default =
      if j = i then f (ps.getD i default) else ps.getD i default := by
  have hlen : (ps.modify f j).length = ps.length := List.length_modify f j ps
  have hi2 : i < (ps.modify f j).length := by omega
  rw [List.getD_eq_getElem _ _ hi2, List.getElem_modify]
  by_cases hji : j = i
  · rw [if_pos hji, if_pos hji, List.getD_eq_getElem _ _ hi]
  · rw [if_neg hji, if_neg hji, List.getD_eq_getElem _ _ hi]

theorem flagExactAt_length (ps : List Page) (d o : ℕ) :
    (flagExactAt ps d o).length = ps.length :=
  List.length_modify _ _ _

theorem flagExactAt_getD (ps : List Page) (d o i : ℕ) (hi : i < ps.length) :
    (flagExactAt ps d o).getD i default =
      if d = i then flagUpd o (ps.getD i default) else ps.getD i default :=
  getD_modify _ _ _ _ hi

theorem flagFold_length (o : ℕ) : ∀ (rest : List ℕ) (ps : List Page),
    (rest.foldl (fun a d => flagExactAt a d o) ps).length = ps.length := by
  intro rest
  induction rest with
  | nil => intro ps; rfl
  | cons d r ih =>
    intro ps
    rw [List.foldl_cons, ih, flagExactAt_length]

theorem flagFold_getD_not_mem (o : ℕ) : ∀ (rest : List ℕ) (ps : List Page) (i : ℕ),
    i < ps.length → i ∉ rest →
    (rest.foldl (fun a d => flagExactAt a d o) ps).getD i default = ps.getD i default := by
  intro rest
  induction rest with
  | nil => intro ps i _ _; rfl
  | cons d r ih =>
    intro ps i hi hnm
    rw [List.foldl_cons]
    have hd : d ≠ i := fun h => hnm (h ▸ List.mem_cons_self d r)
    rw [ih _ i (by rw [flagExactAt_length]; exact hi) (fun h => hnm (List.mem_cons_of_mem _ h))]
    rw [flagExactAt_getD ps d o i hi, if_neg hd]

theorem flagFold_getD_mem (o : ℕ) : ∀ (rest : List ℕ) (ps : List Page) (i : ℕ),
    i < ps.length → i ∈ rest → rest.Nodup →
    (rest.foldl (fun a d => flagExactAt a d o) ps).getD i default =
      flagUpd o (ps.getD i default) := by
  intro rest
  induction rest with
  | nil => intro ps i _ h _; cases h
  | cons d r ih =>
    intro ps i hi hm hnd
    rw [List.foldl_cons]
    rcases List.mem_cons.mp hm with rfl | hm2
    · have hnr : i ∉ r := (List.nodup_cons.mp hnd).1
      rw [flagFold_getD_not_mem o r _ i (by rw [flagExactAt_length]; exact hi) hnr]
      rw [flagExactAt_getD ps i o i hi, if_pos rfl]
    · have hd : d ≠ i := by
        intro h
        subst h
        exact (List.nodup_cons.mp hnd).1 hm2
      rw [ih _ i (by rw [flagExactAt_length]; exact hi) hm2 (List.nodup_cons.mp hnd).2]
      rw [flagExactAt_getD ps d o i hi, if_neg hd]

theorem exactGroupStep_length (ps : List Page) (g : List ℕ) :
    (exactGroupStep ps g).length = ps.length := by
  unfold exactGroupStep
  split
  · cases g with
    | nil => rfl
    | cons o rest => exact flagFold_length o rest ps
  · rfl

theorem exactGroupStep_getD_not_mem (ps : List Page) (g : List ℕ) (i : ℕ)
    (hi : i < ps.length) (hnm : i ∉ g.tail) :
    (exactGroupStep ps g).getD i default = ps.getD i default := by
  unfold exactGroupStep
  split
  · cases g with
    | nil => rfl
    | cons o rest => exact flagFold_getD_not_mem o rest ps i hi hnm
  · rfl

theorem exactGroupStep_getD_mem (ps : List Page) (o : ℕ) (rest : List ℕ) (i : ℕ)
    (hi : i < ps.length) (hm : i ∈ rest) (hnd : rest.Nodup) :
    (exactGroupStep ps (o :: rest)).getD i default = flagUpd o (ps.getD i default) := by
  unfold exactGroupStep
  have hlen : 1 < (o :: rest).length := by
    have h1 : 0 < rest.length := List.length_pos.mpr (List.ne_nil_of_mem hm)
    simp only [List.length_cons]
    omega
  rw [if_pos hlen]
  exact flagFold_getD_mem o rest ps i hi hm hnd

theorem groupFold_length : ∀ (gs : List (List ℕ)) (ps : List Page),
    (gs.foldl exactGroupStep ps).length = ps.length := by
  intro gs
  induction gs with
  | nil => intro ps; rfl
  | cons g r ih =>
    intro ps
    rw [List.foldl_cons, ih, exactGroupStep_length]

theorem groupFold_getD_not_mem : ∀ (gs : List (List ℕ)) (ps : List Page) (i : ℕ),
    i < ps.length → (∀ g ∈ gs, i ∉ g.tail) →
    (gs.foldl exactGroupStep ps).getD i default = ps.getD i default := by
  intro gs
  induction gs with
  | nil => intro ps i _ _; rfl
  | cons g r ih =>
    intro ps i hi hall
    rw [List.foldl_cons]
    rw [ih _ i (by rw [exactGroupStep_length]; exact hi)
      (fun g' hg' => hall g' (List.mem_cons_of_mem _ hg'))]
    exact exactGroupStep_getD_not_mem ps g i hi (hall g (List.mem_cons_self _ _))

theorem groupFold_getD_mem : ∀ (gs : List (List ℕ)) (ps : List Page) (i o : ℕ)
    (rest : List ℕ), i < ps.length →
    (∀ g ∈ gs, g.Pairwise (· < ·)) →
    gs.Pairwise (fun g1 g2 => ∀ x, x ∈ g1 → x ∈ g2 → False) →
    (o :: rest) ∈ gs → i ∈ rest →
    (gs.foldl exactGroupStep ps).getD i default = flagUpd o (ps.getD i default) := by
  intro gs
  induction gs with
  | nil => intro ps i o rest _ _ _ hmem _; cases hmem
  | cons g r ih =>
    intro ps i o rest hi hpw hdisj hmem hir
    rw [List.foldl_cons]
    rcases List.mem_cons.mp hmem with heq | hmem2
    · subst heq
      have hnd : rest.Nodup := by
        have h := hpw _ (List.mem_cons_self _ _)
        exact ((List.pairwise_cons.mp h).2.imp (fun hab => ne_of_lt hab))
      rw [groupFold_getD_not_mem r _ i (by rw [exactGroupStep_length]; exact hi) ?_]
      · exact exactGroupStep_getD_mem ps o rest i hi hir hnd
      · intro g2 hg2 hmem3
        have hd := (List.pairwise_cons.mp hdisj).1 g2 hg2
        exact hd i (List.mem_cons_of_mem _ hir) (List.mem_of_mem_tail hmem3)
    · have hnot : i ∉ g.tail := by
        intro htl
        have hd := (List.pairwise_cons.mp hdisj).1 _ hmem2
        exact hd i (List.mem_of_mem_tail htl) (List.mem_cons_of_mem _ hir)
      rw [ih _ i o rest (by rw [exactGroupStep_length]; exact hi)
        (fun g' hg' => hpw g' (List.mem_cons_of_mem _ hg'))
        (List.pairwise_cons.mp hdisj).2 hmem2 hir]
      rw [exactGroupStep_getD_not_mem ps g i hi hnot]

theorem clearDupFlags_length (pages : List Page) :
    (clearDupFlags pages).length = pages.length :=
  List.length_map _ _

theorem clearDupFlags_getD (pages : List Page) (i : ℕ) (hi : i < pages.length) :
    (clearDupFlags pages).getD i default =
      { pages.getD i default with
        is_exact_duplicate := false
        is_near_duplicate := false
        duplicate_of := [] } := by
  unfold clearDupFlags
  rw [List.getD_eq_getElem _ _ (by rw [List.length_map]; exact hi), List.getElem_map,
    List.getD_eq_getElem _ _ hi]

theorem two_mem_one_lt_length {l : List ℕ} {a b : ℕ} (ha : a ∈ l) (hb : b ∈ l)
    (hne : a ≠ b) : 1 < l.length := by
  cases l with
  | nil => cases ha
  | cons x t =>
    cases t with
    | nil =>
      rcases List.mem_singleton.mp ha with rfl
      rcases List.mem_singleton.mp hb with rfl
      exact absurd rfl hne
    | cons y t2 =>
      simp only [List.length_cons]
      omega

theorem group_of_exists {pages : List Page} {i : ℕ} (hi : i < pages.length)
    (hex : ∃ j, j < i ∧ (pageHashes pages).getD j [] = (pageHashes pages).getD i []) :
    ∃ rest, (firstHashIdx pages i :: rest) ∈ find_exact_duplicates pages ∧ i ∈ rest := by
  rcases hex with ⟨j, hji, hEq⟩
  have hkey : (pageHashes pages).getD i [] ∈ firstOccurrences (pageHashes pages) := by
    rw [firstOccurrences_mem]
    have hlen : (pageHashes pages).length = pages.length := List.length_map _ _
    have hi' : i < (pageHashes pages).length := by omega
    rw [List.getD_eq_getElem _ _ hi']
    exact List.getElem_mem hi'
  have himem : i ∈ hashGroup pages ((pageHashes pages).getD i []) :=
    (hashGroup_mem pages _ i).mpr ⟨hi, rfl⟩
  have hjmem : j ∈ hashGroup pages ((pageHashes pages).getD i []) :=
    (hashGroup_mem pages _ j).mpr ⟨by omega, hEq⟩
  have hlen1 : 1 < (hashGroup pages ((pageHashes pages).getD i [])).length :=
    two_mem_one_lt_length hjmem himem (by omega)
  cases hG : hashGroup pages ((pageHashes pages).getD i []) with
  | nil =>
    rw [hG] at himem
    cases himem
  | cons o rest =>
    have hfirst : firstHashIdx pages i = o := by
      unfold firstHashIdx
      rw [hG]
      rfl
    have hpw : (o :: rest).Pairwise (· < ·) := hG ▸ hashGroup_pairwise pages _
    rw [hG] at himem hjmem hlen1
    have hoi : o < i := by
      rcases List.mem_cons.mp hjmem with heq | hjr
      · omega
      · have := (List.pairwise_cons.mp hpw).1 j hjr
        omega
    have hitail : i ∈ rest := by
      rcases List.mem_cons.mp himem with heq | hir
      · omega
      · exact hir
    refine ⟨rest, ?_, hitail⟩
    rw [hfirst]
    apply find_exact_mem.mpr
    exact ⟨⟨(pageHashes pages).getD i [], hkey, hG.symm⟩, hlen1⟩

theorem exists_of_group {pages : List Page} {i o : ℕ} {rest : List ℕ}
    (hg : (o :: rest) ∈ find_exact_duplicates pages) (hir : i ∈ rest) :
    ∃ j, j < i ∧ (pageHashes pages).getD j [] = (pageHashes pages).getD i [] := by
  rcases find_exact_mem.mp hg with ⟨⟨h, _, hG⟩, _⟩
  have himem : i ∈ hashGroup pages h := by
    rw [← hG]
    exact List.mem_cons_of_mem _ hir
  have homem : o ∈ hashGroup pages h := by
    rw [← hG]
    exact List.mem_cons_self _ _
  have hiEq := ((hashGroup_mem pages h i).mp himem).2
  have hoEq := ((hashGroup_mem pages h o).mp homem).2
  have hpw : (o :: rest).Pairwise (· < ·) := by
    rw [hG]
    exact hashGroup_pairwise pages h
  have hoi : o < i := (List.pairwise_cons.mp hpw).1 i hir
  exact ⟨o, hoi, by rw [hoEq, hiEq]⟩

/-- Claim C7 (status: confirmed).  Exact-duplicate detection groups the page
indices with identical normalized-text hashes; after mark_duplicates a page is
flagged is_exact_duplicate exactly when an earlier page has the same hash, a
flagged page records the lowest index of its hash group as its sole duplicate
target, an unflagged page records no target (so the first occurrence of each
group is never flagged), and on the fixture with texts A, B, A, C the single
group is the index list [0, 2] with only index 2 flagged, targeting index 0. -/
theorem C7_exact_duplicates :
    (find_exact_duplicates pagesDup = [[0, 2]] ∧
      (mark_duplicates pagesDup (find_exact_duplicates pagesDup) []).map
        Page.is_exact_duplicate = [false, false, true, false] ∧
      ((mark_duplicates pagesDup (find_exact_duplicates pagesDup) []).getD 2
        default).duplicate_of = [0]) ∧
    (∀ (pages : List Page) (i : ℕ), i < pages.length →
      (((mark_duplicates pages (find_exact_duplicates pages) []).getD i
          default).is_exact_duplicate = true ↔
        ∃ j, j < i ∧ (pageHashes pages).getD j [] = (pageHashes pages).getD i []) ∧
      ((∃ j, j < i ∧ (pageHashes pages).getD j [] = (pageHashes pages).getD i []) →
        ((mark_duplicates pages (find_exact_duplicates pages) []).getD i
          default).duplicate_of = [firstHashIdx pages i]) ∧
      (¬ (∃ j, j < i ∧ (pageHashes pages).getD j [] = (pageHashes pages).getD i []) →
        ((mark_duplicates pages (find_exact_duplicates pages) []).getD i
          default).duplicate_of = [])) := by
  refine ⟨⟨by decide, by decide, by decide⟩, ?_⟩
  intro pages i hi
  have hmark : mark_duplicates pages (find_exact_duplicates pages) [] =
      (find_exact_duplicates pages).foldl exactGroupStep (clearDupFlags pages) := rfl
  have hclen : i < (clearDupFlags pages).length := by
    rw [clearDupFlags_length]
    exact hi
  have hgood : ∀ g ∈ find_exact_duplicates pages, g.Pairwise (· < ·) :=
    fun g hg => find_exact_pairwise hg
  have hdisj := find_exact_disjoint pages
  by_cases hex : ∃ j, j < i ∧ (pageHashes pages).getD j [] = (pageHashes pages).getD i []
  · rcases group_of_exists hi hex with ⟨rest, hmem, hir⟩
    have hval : (mark_duplicates pages (find_exact_duplicates pages) []).getD i default =
        flagUpd (firstHashIdx pages i) ((clearDupFlags pages).getD i default) := by
      rw [hmark]
      exact groupFold_getD_mem _ _ i _ rest hclen hgood hdisj hmem hir
    rw [hval, clearDupFlags_getD pages i hi]
    exact ⟨⟨fun _ => hex, fun _ => rfl⟩, fun _ => rfl, fun hn => absurd hex hn⟩
  · have hnot : ∀ g ∈ find_exact_duplicates pages, i ∉ g.tail := by
      intro g hg htl
      cases g with
      | nil => cases htl
      | cons o rest => exact hex (exists_of_group hg htl)
    have hval : (mark_duplicates pages (find_exact_duplicates pages) []).getD i default =
        (clearDupFlags pages).getD i default := by
      rw [hmark]
      exact groupFold_getD_not_mem _ _ i hclen hnot
    rw [hval, clearDupFlags_getD pages i hi]
    exact ⟨⟨fun htrue => absurd htrue Bool.false_ne_true, fun hj => absurd hj hex⟩,
      fun hj => absurd hj hex, fun _ => rfl⟩

/-- Witness for C7 at a concrete input: index 2 of the fixture, which has an
earlier page with the same hash. -/
theorem C7_exact_duplicates_witness :
    (2 : ℕ) < pagesDup.length ∧
    (((mark_duplicates pagesDup (find_exact_duplicates pagesDup) []).getD 2
        default).is_exact_duplicate = true ↔
      ∃ j, j < 2 ∧ (pageHashes pagesDup).getD j [] = (pageHashes pagesDup).getD 2 []) :=
  ⟨by decide, (C7_exact_duplicates.2 pagesDup 2 (by decide)).1⟩

end PdfRearranger
